import Mathlib

/-!
Verification of the WFC (Wave Function Collapse) tilemap-synthesizer core:
a shallow embedding in Lean 4 of the `ImageLearner` and `ConstraintSolver`
classes, together with theorems settling the frozen specification claims.

Conventions of the embedding:
* Tile ids are natural numbers (the source uses nonnegative integer tile ids;
  equality is the only operation used).
* A `Bitmask` over pattern indices is modelled as a `Finset ℕ`
  (the `bitmask.js` module is not part of the provided sources; the spec
  defines its semantics: a fixed-width bitset with set/clear, AND, OR-into,
  equality, emptiness and ascending enumeration of set bits).
* JavaScript loops become folds over explicit index ranges; in-place array
  mutation becomes `List.set` / function update.
* The floating-point Shannon-entropy values are modelled over `ℝ` with
  `Real.log`; the entropy-based cell selection of the solver is abstracted
  by an oracle constrained to what the selection routine guarantees.
-/

namespace WFC

/-- A pattern: an N×N matrix of tile ids (`number[][]` in the source). -/
abbrev Pattern := List (List ℕ)

/-- An example image: a 2D tile-id matrix (`number[][]` in the source). -/
abbrev Image := List (List ℕ)

/-- Modelled from the spec: `directions.js` is not among the provided sources.
The spec fixes the canonical ordering {up=(−1,0), down=(1,0), left=(0,−1),
right=(0,1)}, which matches the source comments (`// up`, `// down`,
`// left`, `// right` in `getAdjacencies`, and the opposite-direction map
{0↔1, 2↔3}). -/
def DIRECTIONS : List (ℤ × ℤ) := [(-1, 0), (1, 0), (0, -1), (0, 1)]

/-! ## ImageLearner -/

/-- `ImageLearner.getPattern`: the N×N window of `image` anchored at `(y, x)`.
`pattern[ny][nx] = image[y+ny][x+nx]`. -/
def getPattern (image : Image) (N y x : ℕ) : Pattern :=
  (List.range N).map fun ny =>
    (List.range N).map fun nx =>
      (image.getD (y + ny) []).getD (x + nx) 0

/-- The running state of `getPatternsAndWeights`: the pattern table and the
parallel weight list built so far (`this.patterns` / `this.weights`). -/
abbrev PWState := List Pattern × List ℕ

/-- The `uniquePatterns` map lookup: the index of `p` in the pattern table
built so far, if present.  (The source keys the map by `p.toString()`, the
comma-join of all N² tile ids, which is injective on same-shape patterns,
so it coincides with lookup by structural equality.) -/
def findPat : List Pattern → Pattern → Option ℕ
  | [], _ => none
  | q :: qs, p => if q = p then some 0 else (findPat qs p).map (· + 1)

/-- Increment the weight at index `i` (`this.weights[i]++`). -/
def incAt : List ℕ → ℕ → List ℕ
  | [], _ => []
  | w :: ws, 0 => (w + 1) :: ws
  | w :: ws, n + 1 => w :: incAt ws n

/-- The body of the window scan in `getPatternsAndWeights`: on a repeated
pattern increment its weight, on a new pattern append it with weight 1. -/
def stepWindow (st : PWState) (p : Pattern) : PWState :=
  match findPat st.1 p with
  | some i => (st.1, incAt st.2 i)
  | none => (st.1 ++ [p], st.2 ++ [1])

/-- The row-major sequence of N×N windows of one image:
`y` ranges over `[0, H−N+1)` and `x` over `[0, image[0].length−N+1)`
(the source loops `y < image.length-N+1`, `x < image[0].length-N+1`). -/
def windowsOf (image : Image) (N : ℕ) : List Pattern :=
  (List.range (image.length + 1 - N)).flatMap fun y =>
    (List.range ((image.getD 0 []).length + 1 - N)).map fun x =>
      getPattern image N y x

/-- `ImageLearner.getPatternsAndWeights`: scan every window of every image,
deduplicating patterns and counting weights. -/
def getPatternsAndWeights (images : List Image) (N : ℕ) : PWState :=
  images.foldl (fun st image => (windowsOf image N).foldl stepWindow st) ([], [])

/-- The `start` map of `isAdjacent`: `{-1 ↦ 1, 1 ↦ 0, 0 ↦ 0}`. -/
def startOf (d : ℤ) : ℕ := if d = -1 then 1 else 0

/-- The `end` map of `isAdjacent` applied to `p1.length`:
`endY = p1.length + end.get(dy)` with `end = {-1 ↦ 0, 1 ↦ -1, 0 ↦ 0}`
(truncated ℕ subtraction agrees with the source for the lengths in use). -/
def endOf (len : ℕ) (d : ℤ) : ℕ := if d = 1 then len - 1 else len

/-- `ImageLearner.isAdjacent`: whether `p1` overlaps `p2` compatibly when
`p1` sits to direction `dir` of `p2`: every tile of `p1` in the overlap
region equals the corresponding tile `p2[y+dy][x+dx]`. -/
def isAdjacent (p1 p2 : Pattern) (dir : ℤ × ℤ) : Bool :=
  let dy := dir.1
  let dx := dir.2
  let startY := startOf dy
  let startX := startOf dx
  let endY := endOf p1.length dy
  let endX := endOf (p1.getD 0 []).length dx
  (List.range' startY (endY - startY)).all fun y =>
    (List.range' startX (endX - startX)).all fun x =>
      (p1.getD y []).getD x 0 =
        (p2.getD ((y : ℤ) + dy).toNat []).getD ((x : ℤ) + dx).toNat 0

/-- The `oppositeDirIndex` map `{0 ↦ 1, 1 ↦ 0, 2 ↦ 3, 3 ↦ 2}`. -/
def oppositeDirIndex : ℕ → ℕ
  | 0 => 1
  | 1 => 0
  | 2 => 3
  | 3 => 2
  | n + 4 => n + 4

/-- An adjacency table: for each pattern index a list of four bitmasks
(up, down, left, right). -/
abbrev AdjTable := List (List (Finset ℕ))

/-- The mask `A[i][k]` of an adjacency table (empty when out of range). -/
def maskAt (adj : AdjTable) (i k : ℕ) : Finset ℕ := (adj.getD i []).getD k ∅

/-- `this.adjacencies[i][k].setBit(j)`. -/
def adjSetBit (adj : AdjTable) (i k j : ℕ) : AdjTable :=
  adj.set i ((adj.getD i []).set k (insert j ((adj.getD i []).getD k ∅)))

/-- The body of the triple loop in `getAdjacencies` for a fixed `(i, j, k)`:
if pattern `i` is adjacent to pattern `j` in direction `k`, set bit `j` in
`A[i][k]` and bit `i` in `A[j][opposite k]`. -/
def adjStep (patterns : List Pattern) (adj : AdjTable) (i j k : ℕ) : AdjTable :=
  if isAdjacent (patterns.getD i []) (patterns.getD j []) (DIRECTIONS.getD k (0, 0)) then
    adjSetBit (adjSetBit adj i k j) j (oppositeDirIndex k) i
  else adj

/-- `ImageLearner.getAdjacencies`: initialize four empty masks per pattern,
then for every `i`, every `j` starting at `i+1`, and every direction `k`,
run the adjacency test and set the paired bits. -/
def getAdjacencies (patterns : List Pattern) : AdjTable :=
  let P := patterns.length
  let init : AdjTable := patterns.map fun _ => [∅, ∅, ∅, ∅]
  (List.range P).foldl
    (fun adj i =>
      (List.range' (i + 1) (P - (i + 1))).foldl
        (fun adj j =>
          (List.range 4).foldl (fun adj k => adjStep patterns adj i j k) adj)
        adj)
    init

/-- The learned model: `this.patterns`, `this.weights`, `this.adjacencies`. -/
structure LearnResult where
  patterns : List Pattern
  weights : List ℕ
  adjacencies : AdjTable
  deriving DecidableEq

/-- `ImageLearner.learn`: reset the three fields, extract patterns and
weights, then compute adjacencies. -/
def learn (images : List Image) (N : ℕ) : LearnResult :=
  let pw := getPatternsAndWeights images N
  { patterns := pw.1, weights := pw.2, adjacencies := getAdjacencies pw.1 }


/-! ## ConstraintSolver -/

/-- A cell coordinate `(y, x)` of the wave matrix. -/
abbrev Cell := ℕ × ℕ

/-- The wave matrix `this.waveMatrix`: each cell's set of still-possible
pattern indices.  Modelled as a total function; the embedded code only ever
reads coordinates inside the H×W grid (every neighbour access is
bounds-checked exactly as in the source). -/
abbrev Wave := Cell → Finset ℕ

/-- `ConstraintSolver.initializeWaveMatrix`: every cell starts with every
pattern possible. -/
def initializeWaveMatrix (numPatterns : ℕ) : Wave :=
  fun _ => Finset.range numPatterns

/-- Writing one cell of the wave (`this.waveMatrix[y][x] = ...`). -/
def setCell (w : Wave) (c : Cell) (m : Finset ℕ) : Wave :=
  fun c' => if c' = c then m else w c'

/-- The weighted-random walk of `observe` over the (pattern, weight) pairs:
`cursor += w; if (cursor >= random) return pattern`. -/
def chooseByWeight : List (ℕ × ℕ) → ℚ → ℚ → Option ℕ
  | [], _, _ => none
  | (p, wt) :: rest, cursor, random =>
    if random ≤ cursor + (wt : ℚ) then some p
    else chooseByWeight rest (cursor + (wt : ℚ)) random

/-- `ConstraintSolver.observe`: weighted-random collapse of cell `(y, x)`.
`u` stands for the `Math.random()` draw in [0, 1), so the source's
`random` variable is `u * totalWeight`.  Returns `none` when the walk falls
through the loop (the source then throws). -/
def observe (y x : ℕ) (weights : List ℕ) (u : ℚ) (w : Wave) : Option Wave :=
  let possiblePatterns := (w (y, x)).sort (· ≤ ·)
  let possiblePatternWeights := possiblePatterns.map fun i => weights.getD i 0
  let totalWeight : ℕ := possiblePatternWeights.sum
  let random : ℚ := u * (totalWeight : ℚ)
  match chooseByWeight (possiblePatterns.zip possiblePatternWeights) 0 random with
  | some p => some (setCell w (y, x) {p})
  | none => none

/-- One direction `k` of the inner loop of `ConstraintSolver.propagate`:
compute the neighbour `(y1, x1) + (−dy, −dx)`, skip it if out of bounds,
intersect its mask with the union of the adjacency masks of the dequeued
cell's possible patterns `S1`, report a contradiction if the intersection
is empty, and otherwise write it back and enqueue the neighbour when it
changed.  The state is the wave plus the cells enqueued so far; `none`
reports a contradiction. -/
def dirStep (adjacencies : AdjTable) (H W : ℕ) (c1 : Cell) (S1 : List ℕ) (k : ℕ)
    (st : Wave × List Cell) : Option (Wave × List Cell) :=
  let dir := DIRECTIONS.getD k (0, 0)
  let dy : ℤ := -dir.1
  let dx : ℤ := -dir.2
  let y2 : ℤ := (c1.1 : ℤ) + dy
  let x2 : ℤ := (c1.2 : ℤ) + dx
  if y2 < 0 ∨ y2 > (H : ℤ) - 1 then some st
  else if x2 < 0 ∨ x2 > (W : ℤ) - 1 then some st
  else
    let c2 : Cell := (y2.toNat, x2.toNat)
    let cell2 := st.1 c2
    let possibleAdjacent := S1.foldl (fun acc i => acc ∪ maskAt adjacencies i k) ∅
    let cell2New := cell2 ∩ possibleAdjacent
    if cell2New = ∅ then none
    else if cell2New = cell2 then some st
    else some (setCell st.1 c2 cell2New, st.2 ++ [c2])

/-- Processing one dequeued cell of `propagate`: read its possible patterns
once (in ascending order, `toArray`), then run the four direction steps in
order, short-circuiting on contradiction.  Returns the updated wave and the
newly enqueued cells. -/
def processCell (adjacencies : AdjTable) (H W : ℕ) (w : Wave) (c1 : Cell) :
    Option (Wave × List Cell) :=
  let S1 := (w c1).sort (· ≤ ·)
  (List.range 4).foldl (fun st k => st.bind (dirStep adjacencies H W c1 S1 k)) (some (w, []))

/-- The total mask population of the grid: the sum over all H×W cells of the
number of still-possible patterns.  This is the termination measure of the
propagation sweep. -/
def popTotal (H W : ℕ) (w : Wave) : ℕ :=
  ∑ c ∈ Finset.range H ×ˢ Finset.range W, (w c).card

/-- The while loop of `ConstraintSolver.propagate`, with an explicit fuel
parameter to make the recursion structural: dequeue a cell, process its four
neighbours, append the newly enqueued cells, and repeat.  Results:
`none` = fuel exhausted (never happens for the fuel used by `propagate`,
see `propagateF_sufficient`); `some none` = contradiction created (the
source returns `true`); `some (some w)` = queue emptied without
contradiction (the source returns `false`, leaving the final wave in
`this.waveMatrix`). -/
def propagateF (adjacencies : AdjTable) (H W : ℕ) :
    ℕ → Wave → List Cell → Option (Option Wave)
  | 0, _, _ => none
  | _ + 1, w, [] => some (some w)
  | fuel + 1, w, c1 :: rest =>
    match processCell adjacencies H W w c1 with
    | none => some none
    | some (w', adds) => propagateF adjacencies H W fuel w' (rest ++ adds)

/-- `ConstraintSolver.propagate` seeded with queue `q`: run the sweep with
enough fuel to empty the queue (each iteration either shrinks the total
mask population or shortens the queue, so `popTotal + |q| + 1` iterations
always suffice).  `none` = contradiction, `some w` = final wave. -/
def propagate (adjacencies : AdjTable) (H W : ℕ) (w : Wave) (q : List Cell) :
    Option Wave :=
  (propagateF adjacencies H W (popTotal H W w + q.length + 1) w q).getD none

/-- `ConstraintSolver.getShannonEntropy`.  The source computes with IEEE
doubles; the numeric value is modelled exactly over `ℝ`.  Only its error
behaviour (`Contradiction found.` on an empty cell, exact 0 on a singleton)
is consumed by the claims. -/
noncomputable def getShannonEntropy (bitmask : Finset ℕ) (weights : List ℕ) :
    Except String ℝ :=
  let possiblePatterns := bitmask.sort (· ≤ ·)
  if possiblePatterns.length = 0 then .error "Contradiction found."
  else if possiblePatterns.length = 1 then .ok 0
  else
    let sumOfWeights : ℕ := (possiblePatterns.map fun i => weights.getD i 0).sum
    let sumOfWeightLogWeights : ℝ :=
      (possiblePatterns.map fun i =>
        (weights.getD i 0 : ℝ) * Real.log (weights.getD i 0)).sum
    .ok (Real.log (sumOfWeights : ℝ) - sumOfWeightLogWeights / (sumOfWeights : ℝ))

/-- The three `Math.random()` uses of `solve`, plus the result of
`getLeastEntropyUnsolvedCellPosition`, abstracted as an oracle:
`seedY a`/`seedX a` is the random seed cell of attempt `a`; `draw n` is the
`Math.random()` value of the `n`-th observation; `select w` is the selected
least-entropy unsolved cell (`none` standing for the `[-1, -1]` sentinel).
The selection routine compares floating-point entropies, which have no
faithful embedding; theorems about `solve` therefore quantify over every
oracle whose `select` obeys what the routine guarantees: a returned cell is
in bounds and unsolved (at least two possible patterns, since a singleton
cell gets entropy exactly 0 and a returned cell has entropy > 0). -/
structure Oracle where
  seedY : ℕ → ℕ
  seedX : ℕ → ℕ
  draw : ℕ → ℚ
  select : Wave → Option Cell

/-- The `while (numAttempts <= maxAttempts)` loop of
`ConstraintSolver.solve`, with fuel: observe the current cell, propagate
from it, restart the attempt on contradiction (fresh wave, fresh random
seed cell, attempt counter incremented), otherwise select the next
least-entropy unsolved cell, returning `true` when none remains.  When the
loop exits because the attempt counter passed `maxAttempts`, return
`false`.  `some (.ok b)` is the source's return value `b`; `some (.error e)`
is an escaped exception (from the observe fall-through); `none` = fuel
exhausted. -/
def solveLoop (numPatterns : ℕ) (weights : List ℕ) (adjacencies : AdjTable)
    (width height maxAttempts : ℕ) (o : Oracle) :
    ℕ → ℕ → ℕ → ℕ → ℕ → Wave → Option (Except String Bool)
  | 0, _, _, _, _, _ => none
  | fuel + 1, numAttempts, y, x, drawIdx, w =>
    if numAttempts ≤ maxAttempts then
      match observe y x weights (o.draw drawIdx) w with
      | none => some (.error "A pattern was not chosen within the for loop")
      | some w1 =>
        match propagate adjacencies height width w1 [(y, x)] with
        | none =>
          solveLoop numPatterns weights adjacencies width height maxAttempts o
            fuel (numAttempts + 1) (o.seedY (numAttempts + 1)) (o.seedX (numAttempts + 1))
            (drawIdx + 1) (initializeWaveMatrix numPatterns)
        | some w2 =>
          match o.select w2 with
          | none => some (.ok true)
          | some (y', x') =>
            solveLoop numPatterns weights adjacencies width height maxAttempts o
              fuel numAttempts y' x' (drawIdx + 1) w2
    else some (.ok false)

/-- `ConstraintSolver.solve`: initialize the wave matrix, pick a random
seed cell, and run the attempt loop starting at attempt 1.  The `setTiles`
parameter is declared by the source (`@param {SetTileInstruction[]}
setTiles`) and is carried here for faithfulness; the source never reads
it. -/
def solve (patterns : List Pattern) (weights : List ℕ) (adjacencies : AdjTable)
    (setTiles : List (ℕ × ℕ × Finset ℕ)) (width height maxAttempts : ℕ)
    (o : Oracle) (fuel : ℕ) : Option (Except String Bool) :=
  solveLoop patterns.length weights adjacencies width height maxAttempts o
    fuel 1 (o.seedY 1) (o.seedX 1) 0 (initializeWaveMatrix patterns.length)

/-- Spec-side description of the weighted pick (§4.6.1 of the spec), for
refinement against `observe`: walking the possibility set in ascending
index order, the chosen pattern is the first whose running cumulative
weight reaches the random draw `r`. -/
def observeSpecChoice (S : Finset ℕ) (weights : List ℕ) (r : ℚ) : Option ℕ :=
  (S.sort (· ≤ ·)).find? fun p =>
    r ≤ ((((S.sort (· ≤ ·)).filter (· ≤ p)).map fun i => weights.getD i 0).sum : ℚ)

/-- The union of adjacency masks over the dequeued cell's patterns, as
built by the inner loop of `propagate` for direction `k`. -/
def adjUnion (adjacencies : AdjTable) (S1 : List ℕ) (k : ℕ) : Finset ℕ :=
  S1.foldl (fun acc i => acc ∪ maskAt adjacencies i k) ∅

/-- The wave states that can occur during a `solve` call, as an inductive
over-approximation: the initial (and after-reset) full wave, any successful
observation of an in-bounds cell, and any single processed queue cell of a
propagation sweep (in any order, covering every intermediate wave of
`propagate`). -/
inductive SolveReach (numPatterns : ℕ) (weights : List ℕ) (adjacencies : AdjTable)
    (H W : ℕ) : Wave → Prop
  | init : SolveReach numPatterns weights adjacencies H W (initializeWaveMatrix numPatterns)
  | observeStep {w w' : Wave} {y x : ℕ} {u : ℚ} :
      SolveReach numPatterns weights adjacencies H W w → y < H → x < W →
      observe y x weights u w = some w' →
      SolveReach numPatterns weights adjacencies H W w'
  | propagateStep {w : Wave} {c1 : Cell} {w' : Wave} {adds : List Cell} :
      SolveReach numPatterns weights adjacencies H W w → c1.1 < H → c1.2 < W →
      processCell adjacencies H W w c1 = some (w', adds) →
      SolveReach numPatterns weights adjacencies H W w'

/-- The guarantees `solve` relies on from its random sources and from the
entropy-based selection routine (见 `Oracle`). -/
def OracleOK (o : Oracle) (H W : ℕ) : Prop :=
  (∀ a, o.seedY a < H ∧ o.seedX a < W) ∧
  (∀ n, 0 ≤ o.draw n ∧ o.draw n < 1) ∧
  (∀ w c, o.select w = some c → c.1 < H ∧ c.2 < W ∧ 2 ≤ (w c).card)

/-- The loop invariant of `solve`'s attempt loop: the current cell is in
bounds, every grid mask is nonempty, every mask is a subset of the full
pattern range, and the current cell is unsolved (or there is only one
pattern). -/
def SolveInv (numPatterns H W y x : ℕ) (w : Wave) : Prop :=
  y < H ∧ x < W ∧ (∀ y' x', y' < H → x' < W → w (y', x') ≠ ∅) ∧
  (∀ c, w c ⊆ Finset.range numPatterns) ∧ (2 ≤ (w (y, x)).card ∨ numPatterns = 1)

/-- The neighbour coordinate consulted by `propagate` for direction `k`
(`(y1, x1) + (−dy, −dx)`), or `none` when it falls outside the H×W grid. -/
def neighborOf (H W : ℕ) (c1 : Cell) (k : ℕ) : Option Cell :=
  let dir := DIRECTIONS.getD k (0, 0)
  let y2 : ℤ := (c1.1 : ℤ) + -dir.1
  let x2 : ℤ := (c1.2 : ℤ) + -dir.2
  if y2 < 0 ∨ y2 > (H : ℤ) - 1 then none
  else if x2 < 0 ∨ x2 > (W : ℤ) - 1 then none
  else some (y2.toNat, x2.toNat)

/-- The adjacency union computed by `propagate` for the patterns of cell
`c1` of wave `w`, in direction `k`. -/
def waveAdjUnion (adjacencies : AdjTable) (w : Wave) (c1 : Cell) (k : ℕ) : Finset ℕ :=
  adjUnion adjacencies ((w c1).sort (· ≤ ·)) k

/-- Arc consistency of `w` at source cell `c1`: every in-bounds neighbour's
mask is contained in the union of the adjacency masks of `c1`'s patterns. -/
def arcsOK (adjacencies : AdjTable) (H W : ℕ) (w : Wave) (c1 : Cell) : Prop :=
  ∀ k, k < 4 → ∀ c2, neighborOf H W c1 k = some c2 →
    w c2 ⊆ waveAdjUnion adjacencies w c1 k

/-- One step of the propagation sweep with nondeterministic queue order:
process any pending cell (exactly as `propagate`'s loop body does), remove
it from the pending set and add the neighbours whose masks shrank.  Only
non-contradictory steps exist. -/
inductive PropStep (adjacencies : AdjTable) (H W : ℕ) :
    Wave × Finset Cell → Wave × Finset Cell → Prop
  | step {w : Wave} {pend : Finset Cell} {c1 : Cell} {w' : Wave} {adds : List Cell} :
      c1 ∈ pend →
      processCell adjacencies H W w c1 = some (w', adds) →
      PropStep adjacencies H W (w, pend) (w', pend.erase c1 ∪ adds.toFinset)

/-- The conditions a wave `u` must meet to lie below every complete
propagation run from `(w0, q0)`: it is below the start, and it is
arc-consistent at every cell that is initially pending or that it has
narrowed. -/
def Conds (adjacencies : AdjTable) (H W : ℕ) (w0 : Wave) (q0 : Finset Cell)
    (u : Wave) : Prop :=
  (∀ c, u c ⊆ w0 c) ∧
  ∀ c1, (c1 ∈ q0 ∨ u c1 ≠ w0 c1) → arcsOK adjacencies H W u c1

/-! ## Derived notions used by the verification -/

/-- The dedup invariant: the pattern table and weight list stay parallel. -/
def PWInv (st : PWState) : Prop := st.1.length = st.2.length

/-- Adjacency-table symmetry: bit `b` of `A[a][k]` is set iff bit `a` of
`A[b][opposite k]` is set. -/
def AdjSym (adj : AdjTable) : Prop :=
  ∀ a b k, k < 4 → (b ∈ maskAt adj a k ↔ a ∈ maskAt adj b (oppositeDirIndex k))

/-- The invariant carried through `getAdjacencies`: table shape plus symmetry. -/
def AdjInv (P : ℕ) (adj : AdjTable) : Prop :=
  adj.length = P ∧ (∀ row ∈ adj, row.length = 4) ∧ AdjSym adj

/-! ## Properties of the learner -/



theorem getD_set_self {α : Type} {l : List α} {i : ℕ} (h : i < l.length) (a d : α) :
    (l.set i a).getD i d = a := by
  simp [List.getD, h]

theorem getD_set_ne {α : Type} (l : List α) {i j : ℕ} (h : i ≠ j) (a d : α) :
    (l.set i a).getD j d = l.getD j d := by
  simp [List.getD, List.getElem?_set_ne h]

theorem maskAt_adjSetBit {adj : AdjTable} {i k : ℕ} (j : ℕ) (hi : i < adj.length) (hk : k < 4)
    (hrow : ∀ row ∈ adj, row.length = 4) (a b : ℕ) :
    maskAt (adjSetBit adj i k j) a b =
      if a = i ∧ b = k then insert j (maskAt adj i k) else maskAt adj a b := by
  have hrowlen : (adj.getD i []).length = 4 := by
    rw [List.getD_eq_getElem _ _ hi]
    exact hrow _ (List.getElem_mem hi)
  unfold adjSetBit maskAt
  by_cases ha : a = i
  · subst ha
    rw [getD_set_self hi]
    by_cases hb : b = k
    · subst hb
      rw [getD_set_self (hrowlen ▸ hk)]
      simp
    · rw [getD_set_ne _ (fun h => hb h.symm)]
      simp [hb]
  · rw [getD_set_ne _ (fun h => ha h.symm)]
    simp [ha]

theorem adjSetBit_length (adj : AdjTable) (i k j : ℕ) :
    (adjSetBit adj i k j).length = adj.length := by
  simp [adjSetBit]

theorem adjSetBit_rows {adj : AdjTable} {i : ℕ} (k j : ℕ) (hi : i < adj.length)
    (hrow : ∀ row ∈ adj, row.length = 4) :
    ∀ row ∈ adjSetBit adj i k j, row.length = 4 := by
  intro row hmem
  rcases List.mem_or_eq_of_mem_set hmem with h | h
  · exact hrow _ h
  · subst h
    simp only [List.length_set]
    rw [List.getD_eq_getElem _ _ hi]
    exact hrow _ (List.getElem_mem hi)

theorem oppositeDirIndex_lt {k : ℕ} (hk : k < 4) : oppositeDirIndex k < 4 := by
  interval_cases k <;> simp [oppositeDirIndex]

theorem oppositeDirIndex_opp {k : ℕ} (hk : k < 4) :
    oppositeDirIndex (oppositeDirIndex k) = k := by
  interval_cases k <;> rfl

theorem mem_maskAt_pairSet {adj : AdjTable} {i j k : ℕ} (hij : i ≠ j)
    (hi : i < adj.length) (hj : j < adj.length) (hk : k < 4)
    (hrow : ∀ row ∈ adj, row.length = 4) (a b m : ℕ) :
    m ∈ maskAt (adjSetBit (adjSetBit adj i k j) j (oppositeDirIndex k) i) a b ↔
      ((a = j ∧ b = oppositeDirIndex k ∧ m = i) ∨ (a = i ∧ b = k ∧ m = j) ∨
        m ∈ maskAt adj a b) := by
  have h1len : (adjSetBit adj i k j).length = adj.length := adjSetBit_length ..
  have h1row : ∀ row ∈ adjSetBit adj i k j, row.length = 4 := adjSetBit_rows _ _ hi hrow
  by_cases hab : a = j ∧ b = oppositeDirIndex k
  · obtain ⟨ha, hb⟩ := hab
    simp only [ha, hb]
    rw [maskAt_adjSetBit i (h1len ▸ hj) (oppositeDirIndex_lt hk) h1row,
      if_pos ⟨rfl, rfl⟩, maskAt_adjSetBit j hi hk hrow,
      if_neg (fun h => (hij h.1.symm).elim)]
    simp [Finset.mem_insert, Ne.symm hij]
  · rw [maskAt_adjSetBit i (h1len ▸ hj) (oppositeDirIndex_lt hk) h1row, if_neg hab]
    by_cases hab2 : a = i ∧ b = k
    · obtain ⟨ha, hb⟩ := hab2
      simp only [ha, hb]
      rw [maskAt_adjSetBit j hi hk hrow, if_pos ⟨rfl, rfl⟩]
      simp only [Finset.mem_insert]
      simp [hij, Ne.symm hij, ha, hb] at *
    · rw [maskAt_adjSetBit j hi hk hrow, if_neg hab2]
      tauto


theorem foldl_pred_inv {α β : Type*} {f : α → β → α} {l : List β} {I : α → Prop}
    {Q : β → Prop} (hl : ∀ b ∈ l, Q b)
    (hstep : ∀ a b, Q b → I a → I (f a b)) :
    ∀ a, I a → I (l.foldl f a) := by
  induction l with
  | nil => intro a h; simpa using h
  | cons b l ih =>
    intro a h
    rw [List.foldl_cons]
    exact ih (fun x hx => hl x (List.mem_cons_of_mem _ hx))
      _ (hstep a b (hl b (List.mem_cons_self ..)) h)

theorem adjStep_inv {patterns : List Pattern} {P i j k : ℕ} (hij : i < j) (hjP : j < P)
    (hk : k < 4) {adj : AdjTable} (h : AdjInv P adj) :
    AdjInv P (adjStep patterns adj i j k) := by
  obtain ⟨hlen, hrow, hsym⟩ := h
  have hiP : i < adj.length := by omega
  have hjP' : j < adj.length := by omega
  have hne : i ≠ j := Nat.ne_of_lt hij
  unfold adjStep
  split
  · refine ⟨?_, ?_, ?_⟩
    · rw [adjSetBit_length, adjSetBit_length]
      exact hlen
    · exact adjSetBit_rows _ _ (by rw [adjSetBit_length]; exact hjP')
        (adjSetBit_rows _ _ hiP hrow)
    · intro a b k' hk'
      rw [mem_maskAt_pairSet hne hiP hjP' hk hrow,
        mem_maskAt_pairSet hne hiP hjP' hk hrow]
      constructor
      · rintro (⟨rfl, rfl, rfl⟩ | ⟨rfl, rfl, rfl⟩ | hmem)
        · exact Or.inr (Or.inl ⟨rfl, oppositeDirIndex_opp hk, rfl⟩)
        · exact Or.inl ⟨rfl, rfl, rfl⟩
        · exact Or.inr (Or.inr ((hsym a b k' hk').mp hmem))
      · rintro (⟨rfl, hb, rfl⟩ | ⟨rfl, hb, rfl⟩ | hmem)
        · have hkk : k' = k := by
            rw [← oppositeDirIndex_opp hk', hb, oppositeDirIndex_opp hk]
          subst hkk
          exact Or.inr (Or.inl ⟨rfl, rfl, rfl⟩)
        · have hkk : k' = oppositeDirIndex k := by
            rw [← oppositeDirIndex_opp hk', hb]
          subst hkk
          exact Or.inl ⟨rfl, rfl, rfl⟩
        · refine Or.inr (Or.inr ?_)
          have := (hsym b a (oppositeDirIndex k') (oppositeDirIndex_lt hk')).mp hmem
          rwa [oppositeDirIndex_opp hk'] at this
  · exact ⟨hlen, hrow, hsym⟩


theorem maskAt_init (patterns : List Pattern) (a b : ℕ) :
    maskAt (patterns.map fun _ => ([∅, ∅, ∅, ∅] : List (Finset ℕ))) a b = ∅ := by
  unfold maskAt
  rcases Nat.lt_or_ge a patterns.length with h | h
  · have hrow : (patterns.map fun _ => ([∅, ∅, ∅, ∅] : List (Finset ℕ))).getD a [] =
        [∅, ∅, ∅, ∅] := by
      rw [List.getD_eq_getElem _ _ (by simpa using h), List.getElem_map]
    rw [hrow]
    rcases b with _ | _ | _ | _ | b <;> rfl
  · have hrow : (patterns.map fun _ => ([∅, ∅, ∅, ∅] : List (Finset ℕ))).getD a [] = [] :=
      List.getD_eq_default _ _ (by simpa using h)
    rw [hrow]
    rfl

theorem getAdjacencies_inv (patterns : List Pattern) :
    AdjInv patterns.length (getAdjacencies patterns) := by
  unfold getAdjacencies
  refine foldl_pred_inv (Q := fun i => i < patterns.length)
    (fun i hi => List.mem_range.mp hi) ?_ _ ?_
  · intro adj i hi hInv
    refine foldl_pred_inv (Q := fun j => i < j ∧ j < patterns.length)
      (fun j hj => ?_) ?_ _ hInv
    · rw [List.mem_range'_1] at hj
      omega
    · intro adj' j hj hInv'
      refine foldl_pred_inv (Q := fun k => k < 4)
        (fun k hk => List.mem_range.mp hk) ?_ _ hInv'
      intro adj'' k hk hInv''
      exact adjStep_inv hj.1 hj.2 hk hInv''
  · refine ⟨by simp, ?_, ?_⟩
    · intro row hrow
      rw [List.mem_map] at hrow
      obtain ⟨_, _, rfl⟩ := hrow
      rfl
    · intro a b k hk
      rw [maskAt_init, maskAt_init]
      simp

/-- C6: for every learned model and all pattern indices `i`, `j`, the
adjacency table is symmetric: bit `j` of `A[i][up]` is set iff bit `i` of
`A[j][down]` is set, and bit `j` of `A[i][left]` is set iff bit `i` of
`A[j][right]` is set. -/
theorem c6_adjacency_symmetry (images : List Image) (N i j : ℕ) :
    (j ∈ maskAt (learn images N).adjacencies i 0 ↔
      i ∈ maskAt (learn images N).adjacencies j 1) ∧
    (j ∈ maskAt (learn images N).adjacencies i 2 ↔
      i ∈ maskAt (learn images N).adjacencies j 3) := by
  have h := (getAdjacencies_inv (getPatternsAndWeights images N).1).2.2
  exact ⟨h i j 0 (by omega), h i j 2 (by omega)⟩


theorem findPat_lt_length {ps : List Pattern} {p : Pattern} {i : ℕ}
    (h : findPat ps p = some i) : i < ps.length := by
  induction ps generalizing i with
  | nil => simp [findPat] at h
  | cons q qs ih =>
    rw [findPat] at h
    split at h
    · injection h with h'
      subst h'
      simp
    · rw [Option.map_eq_some'] at h
      obtain ⟨j, hj, rfl⟩ := h
      have := ih hj
      simp
      omega

theorem incAt_length (ws : List ℕ) (i : ℕ) : (incAt ws i).length = ws.length := by
  induction ws generalizing i with
  | nil => rfl
  | cons w ws ih => cases i <;> simp [incAt, ih]

theorem incAt_sum {ws : List ℕ} {i : ℕ} (h : i < ws.length) :
    (incAt ws i).sum = ws.sum + 1 := by
  induction ws generalizing i with
  | nil => simp at h
  | cons w ws ih =>
    cases i with
    | zero => simp [incAt]; omega
    | succ n =>
      simp at h
      simp [incAt, ih h]
      omega

theorem stepWindow_inv {st : PWState} (h : PWInv st) (p : Pattern) :
    PWInv (stepWindow st p) := by
  unfold stepWindow
  cases hf : findPat st.1 p with
  | none => simpa [PWInv] using h
  | some i => simpa [PWInv, incAt_length] using h

theorem stepWindow_sum {st : PWState} (h : PWInv st) (p : Pattern) :
    (stepWindow st p).2.sum = st.2.sum + 1 := by
  unfold stepWindow
  cases hf : findPat st.1 p with
  | none => simp
  | some i =>
    have hi : i < st.2.length := h ▸ findPat_lt_length hf
    simpa using incAt_sum hi

theorem foldl_stepWindow_sum (l : List Pattern) {st : PWState} (h : PWInv st) :
    ((l.foldl stepWindow st).2.sum = st.2.sum + l.length) ∧ PWInv (l.foldl stepWindow st) := by
  induction l generalizing st with
  | nil => simpa using h
  | cons p l ih =>
    obtain ⟨h1, h2⟩ := ih (stepWindow_inv h p)
    refine ⟨?_, h2⟩
    rw [List.foldl_cons]
    rw [h1, stepWindow_sum h p]
    simp
    omega

theorem windowsOf_length (image : Image) (N : ℕ) :
    (windowsOf image N).length =
      (image.length + 1 - N) * ((image.getD 0 []).length + 1 - N) := by
  unfold windowsOf
  rw [List.length_flatMap]
  simp only [Function.comp_def, List.length_map, List.length_range]
  rw [List.map_const']
  simp [List.sum_replicate, smul_eq_mul, Nat.mul_comm]

/-- C4 general form: the sum of learned weights equals the total number of
windows scanned. -/
theorem sum_weights_eq_windows (images : List Image) (N : ℕ) :
    (getPatternsAndWeights images N).2.sum =
      (images.map fun img =>
        (img.length + 1 - N) * ((img.getD 0 []).length + 1 - N)).sum := by
  unfold getPatternsAndWeights
  suffices h : ∀ st : PWState, PWInv st →
      ((images.foldl (fun st image => (windowsOf image N).foldl stepWindow st) st).2.sum =
        st.2.sum + (images.map fun img =>
          (img.length + 1 - N) * ((img.getD 0 []).length + 1 - N)).sum) by
    simpa using h ([], []) rfl
  induction images with
  | nil => intro st _; simp
  | cons img imgs ih =>
    intro st hst
    obtain ⟨h1, h2⟩ := foldl_stepWindow_sum (windowsOf img N) hst
    rw [List.foldl_cons, ih _ h2, h1, windowsOf_length]
    simp
    omega

theorem windowsOf_eq_nil {image : Image} {N : ℕ}
    (h : image.length < N ∨ (image.getD 0 []).length < N) : windowsOf image N = [] := by
  unfold windowsOf
  rcases h with h | h
  · have h0 : image.length + 1 - N = 0 := by omega
    rw [h0]
    rfl
  · have h0 : (image.getD 0 []).length + 1 - N = 0 := by omega
    rw [h0]
    simp

/-! ## Claim theorems for the learner -/

/-- C1: the claim states that the learner tests each pattern against itself
and records self-adjacency, so that for the single image `[[0,0],[0,0]]`
with N=2 all four masks `A[0][d]` equal `{0}`.  The code does not: its inner
loop starts at `j = i+1`, so the self pair `(i, i)` is never tested.  This
theorem evaluates the code at the failing input: the learner produces P=1
and W=[1] as claimed, the self-adjacency test `isAdjacent` would succeed in
all four directions, and yet all four adjacency masks come out empty. -/
theorem c1_self_adjacency_bits_missing :
    (learn [[[0, 0], [0, 0]]] 2).patterns.length = 1 ∧
    (learn [[[0, 0], [0, 0]]] 2).weights = [1] ∧
    ((List.range 4).all fun k =>
      isAdjacent [[0, 0], [0, 0]] [[0, 0], [0, 0]] (DIRECTIONS.getD k (0, 0))) = true ∧
    (learn [[[0, 0], [0, 0]]] 2).adjacencies = [[∅, ∅, ∅, ∅]] := by
  decide

/-- C3 counterexample: on the stripe image `[[0,1,0,1],[0,1,0,1],[0,1,0,1]]`
with N=2, the code does produce the two claimed patterns in the claimed
order, but the weights are not `[3, 2]` (there are 2·3 = 6 windows; the
pattern `[[0,1],[0,1]]` occurs 4 times). -/
theorem c3_stripe_weights_counterexample :
    (learn [[[0, 1, 0, 1], [0, 1, 0, 1], [0, 1, 0, 1]]] 2).patterns =
      [[[0, 1], [0, 1]], [[1, 0], [1, 0]]] ∧
    (learn [[[0, 1, 0, 1], [0, 1, 0, 1], [0, 1, 0, 1]]] 2).weights ≠ [3, 2] := by
  decide

/-- C3 amended: running learn on the single image
`[[0,1,0,1],[0,1,0,1],[0,1,0,1]]` with N=2 produces exactly the two patterns
`[[0,1],[0,1]]` and `[[1,0],[1,0]]` in that order, with weights `[4, 2]`. -/
theorem c3_stripe_patterns_and_weights :
    (learn [[[0, 1, 0, 1], [0, 1, 0, 1], [0, 1, 0, 1]]] 2).patterns =
      [[[0, 1], [0, 1]], [[1, 0], [1, 0]]] ∧
    (learn [[[0, 1, 0, 1], [0, 1, 0, 1], [0, 1, 0, 1]]] 2).weights = [4, 2] := by
  decide

/-- C4: for every valid input (nonempty images, each at least N×N, N ≥ 1),
the sum of all learned weights equals the total number of N×N windows
scanned across all input images, Σ over images of (H−N+1)·(W−N+1). -/
theorem c4_weight_conservation (images : List Image) (N : ℕ) (_hN : 1 ≤ N)
    (_himg : ∀ img ∈ images, N ≤ img.length ∧ N ≤ (img.getD 0 []).length) :
    (learn images N).weights.sum =
      (images.map fun img =>
        (img.length + 1 - N) * ((img.getD 0 []).length + 1 - N)).sum :=
  sum_weights_eq_windows images N

/-- Witness for C4 at the stripe input: 4 + 2 = (3−2+1)·(4−2+1). -/
theorem c4_weight_conservation_witness :
    (1 ≤ 2 ∧ ∀ img ∈ [[[0, 1, 0, 1], [0, 1, 0, 1], [0, 1, 0, 1]]],
      2 ≤ List.length img ∧ 2 ≤ (img.getD 0 []).length) ∧
    (learn [[[0, 1, 0, 1], [0, 1, 0, 1], [0, 1, 0, 1]]] 2).weights.sum =
      ([[[0, 1, 0, 1], [0, 1, 0, 1], [0, 1, 0, 1]]].map fun img =>
        (List.length img + 1 - 2) * ((img.getD 0 []).length + 1 - 2)).sum :=
  ⟨⟨by decide, by decide⟩,
    c4_weight_conservation [[[0, 1, 0, 1], [0, 1, 0, 1], [0, 1, 0, 1]]] 2
      (by decide) (by decide)⟩

/-- C5 counterexample: the claim states that learning fails with an
`InvalidInput` error when an image is smaller than N or when N < 1.  The
code performs no validation at all (there is no error channel anywhere in
`ImageLearner`): with the image `[[0]]` and N=2 the window loops simply do
not run and learn returns the empty model, and with N=0 learn returns a
degenerate model of one empty pattern. -/
theorem c5_learn_never_fails_counterexample :
    learn [[[0]]] 2 = ⟨[], [], []⟩ ∧
    learn [[[5]]] 0 = ⟨[[]], [4], [[∅, ∅, ∅, ∅]]⟩ := by
  decide

/-- C5 amended: learn performs no input validation and never fails; when
every image is smaller than N in one of its dimensions it contributes no
windows, and learn returns the empty model (no patterns, no weights, no
adjacencies) instead of an `InvalidInput` error. -/
theorem c5_learn_no_validation (images : List Image) (N : ℕ)
    (h : ∀ img ∈ images, img.length < N ∨ (img.getD 0 []).length < N) :
    learn images N = ⟨[], [], []⟩ := by
  have hpw : getPatternsAndWeights images N = ([], []) := by
    unfold getPatternsAndWeights
    induction images with
    | nil => rfl
    | cons img imgs ih =>
      rw [List.foldl_cons, windowsOf_eq_nil (h img (List.mem_cons_self ..))]
      exact ih fun img' h' => h img' (List.mem_cons_of_mem _ h')
  unfold learn
  rw [hpw]
  rfl

/-- Witness for C5 amended, at the image `[[0]]` with N=2. -/
theorem c5_learn_no_validation_witness :
    (∀ img ∈ [[[0]]], List.length img < 2 ∨ (img.getD 0 []).length < 2) ∧
    learn [[[0]]] 2 = ⟨[], [], []⟩ :=
  ⟨by decide, c5_learn_no_validation [[[0]]] 2 (by decide)⟩

/-! ## Properties of the solver -/

theorem find?_congr' {α : Type} {p q : α → Bool} {l : List α}
    (h : ∀ a ∈ l, p a = q a) : l.find? p = l.find? q := by
  induction l with
  | nil => rfl
  | cons a l ih =>
    rw [List.find?_cons, List.find?_cons, h a (List.mem_cons_self ..)]
    split
    · rfl
    · exact ih fun a ha => h a (List.mem_cons_of_mem _ ha)

theorem chooseByWeight_cons (p wt : ℕ) (zs : List (ℕ × ℕ)) (c r : ℚ) :
    chooseByWeight ((p, wt) :: zs) c r =
      if r ≤ c + (wt : ℚ) then some p else chooseByWeight zs (c + (wt : ℚ)) r := rfl

theorem chooseByWeight_eq_find (weights : List ℕ) (r : ℚ) :
    ∀ (l : List ℕ) (c : ℚ), l.Sorted (· < ·) →
      chooseByWeight (l.zip (l.map fun i => weights.getD i 0)) c r =
        l.find? fun p =>
          r ≤ c + ((((l.filter (· ≤ p)).map fun i => weights.getD i 0).sum : ℕ) : ℚ) := by
  intro l
  induction l with
  | nil => intro c _; rfl
  | cons p rest ih =>
    intro c hsort
    have hrest : ∀ q ∈ rest, p < q := (List.sorted_cons.mp hsort).1
    have hfilter_p : rest.filter (· ≤ p) = [] := by
      rw [List.filter_eq_nil_iff]
      intro q hq
      simpa using (hrest q hq).not_le
    have hcond : (((p :: rest).filter (· ≤ p)).map fun i => weights.getD i 0).sum =
        weights.getD p 0 := by
      rw [List.filter_cons, if_pos (by simp), hfilter_p]
      simp
    rw [List.map_cons, List.zip_cons_cons, chooseByWeight_cons, List.find?_cons]
    by_cases hc : r ≤ c + ((weights.getD p 0 : ℕ) : ℚ)
    · rw [if_pos hc]
      have : (decide (r ≤ c +
          (((((p :: rest).filter (· ≤ p)).map fun i => weights.getD i 0).sum : ℕ) : ℚ))) =
          true := by
        rw [hcond]
        exact decide_eq_true hc
      rw [this]
    · rw [if_neg hc]
      have : (decide (r ≤ c +
          (((((p :: rest).filter (· ≤ p)).map fun i => weights.getD i 0).sum : ℕ) : ℚ))) =
          false := by
        rw [hcond]
        exact decide_eq_false hc
      rw [this]
      rw [ih _ (List.sorted_cons.mp hsort).2]
      refine find?_congr' fun q hq => ?_
      have hpq : p ≤ q := (hrest q hq).le
      have hfq : ((p :: rest).filter (· ≤ q)) = p :: rest.filter (· ≤ q) := by
        rw [List.filter_cons, if_pos (by simpa using hpq)]
      rw [hfq]
      refine decide_eq_decide.mpr ?_
      rw [List.map_cons, List.sum_cons]
      push_cast
      constructor <;> intro h <;> linarith


/-- `observe` refines the spec's weighted pick: with a nonempty cell,
positive weights and a draw `u ∈ [0,1)`, the walk lands on the first index
whose cumulative weight reaches `r = u·T`, a member of the cell, and the
cell is overwritten with that singleton. -/
theorem observe_collapse_spec (y x : ℕ) (weights : List ℕ) (u : ℚ) (w : Wave)
    (hne : w (y, x) ≠ ∅)
    (hw : ∀ i ∈ w (y, x), 1 ≤ weights.getD i 0)
    (_hu0 : 0 ≤ u) (hu1 : u < 1) :
    ∃ p ∈ w (y, x),
      observeSpecChoice (w (y, x)) weights
        (u * ((((w (y, x)).sort (· ≤ ·)).map fun i => weights.getD i 0).sum : ℕ)) = some p ∧
      observe y x weights u w = some (setCell w (y, x) {p}) := by
  set S := w (y, x) with hS
  set l := S.sort (· ≤ ·) with hl
  set T : ℕ := (l.map fun i => weights.getD i 0).sum with hT
  set r : ℚ := u * (T : ℚ) with hr
  have hlne : l ≠ [] := by
    intro h0
    apply hne
    apply Finset.card_eq_zero.mp
    rw [← Finset.length_sort (· ≤ ·), ← hl, h0]
    rfl
  have hmax : S.max' (Finset.nonempty_of_ne_empty hne) ∈ l := by
    rw [hl, Finset.mem_sort]
    exact S.max'_mem _
  have hT1 : 1 ≤ T := by
    calc (1 : ℕ) ≤ weights.getD (S.max' (Finset.nonempty_of_ne_empty hne)) 0 :=
          hw _ (by rwa [hl, Finset.mem_sort] at hmax)
      _ ≤ T := List.single_le_sum (fun i _ => Nat.zero_le _) _
          (List.mem_map_of_mem _ hmax)
  have hrT : r < (T : ℚ) := by
    rw [hr]
    calc u * (T : ℚ) < 1 * (T : ℚ) := by
          apply mul_lt_mul_of_pos_right hu1
          exact_mod_cast hT1
      _ = (T : ℚ) := one_mul _
  have hfind : ∃ p, l.find? (fun p =>
      r ≤ ((((l.filter (· ≤ p)).map fun i => weights.getD i 0).sum : ℕ) : ℚ)) = some p := by
    rw [← Option.isSome_iff_exists, List.find?_isSome]
    refine ⟨S.max' (Finset.nonempty_of_ne_empty hne), hmax, ?_⟩
    have hfl : l.filter (· ≤ S.max' (Finset.nonempty_of_ne_empty hne)) = l := by
      rw [List.filter_eq_self]
      intro a ha
      simp only [decide_eq_true_eq]
      exact S.le_max' a (by rwa [hl, Finset.mem_sort] at ha)
    rw [hfl]
    exact decide_eq_true hrT.le
  obtain ⟨p, hp⟩ := hfind
  have hpmem : p ∈ S := by
    have := List.mem_of_find?_eq_some hp
    rwa [hl, Finset.mem_sort] at this
  have hchoice : observeSpecChoice S weights r = some p := by
    rw [observeSpecChoice, ← hl, ← hp]
  refine ⟨p, hpmem, hchoice, ?_⟩
  rw [observe]
  have hchoose : chooseByWeight (l.zip (l.map fun i => weights.getD i 0)) 0 r = some p := by
    rw [chooseByWeight_eq_find weights r l 0 (by rw [hl]; exact Finset.sort_sorted_lt S)]
    rw [← hp]
    refine find?_congr' fun a _ => ?_
    refine decide_eq_decide.mpr ?_
    rw [zero_add]
  simp only [← hS, ← hl, ← hT, ← hr]
  rw [hchoose]

/-- C9: for every cell whose possibility set S is nonempty and whose
patterns all have positive weight, and every random draw `r = u·T` with
`u ∈ [0,1)` (so `r ∈ [0,T)`), `observe` terminates without reaching its
error branch and replaces the cell's mask with the singleton `{p}`, where
`p` is the first index of S in ascending order whose running cumulative
weight is ≥ r (`observeSpecChoice`); in particular `p` was a member of S
before the call. -/
theorem c9_observe_weighted_collapse (y x : ℕ) (weights : List ℕ) (u : ℚ) (w : Wave)
    (hne : w (y, x) ≠ ∅)
    (hw : ∀ i ∈ w (y, x), 1 ≤ weights.getD i 0)
    (hu0 : 0 ≤ u) (hu1 : u < 1) :
    ∃ p ∈ w (y, x),
      observeSpecChoice (w (y, x)) weights
        (u * ((((w (y, x)).sort (· ≤ ·)).map fun i => weights.getD i 0).sum : ℕ)) = some p ∧
      observe y x weights u w = some (setCell w (y, x) {p}) :=
  observe_collapse_spec y x weights u w hne hw hu0 hu1

/-- Witness for C9: a two-pattern cell with weights [1,1] and u = 1/2. -/
theorem c9_observe_weighted_collapse_witness :
    ∃ p ∈ initializeWaveMatrix 2 (0, 0),
      observeSpecChoice (initializeWaveMatrix 2 (0, 0)) [1, 1]
        ((1 / 2 : ℚ) * ((((initializeWaveMatrix 2 (0, 0)).sort (· ≤ ·)).map
          fun i => [1, 1].getD i 0).sum : ℕ)) = some p ∧
      observe 0 0 [1, 1] (1 / 2) (initializeWaveMatrix 2) =
        some (setCell (initializeWaveMatrix 2) (0, 0) {p}) :=
  c9_observe_weighted_collapse 0 0 [1, 1] (1 / 2) (initializeWaveMatrix 2)
    (by decide) (by decide) (by norm_num) (by norm_num)

/-- C2: the claim states that `solve` applies the preset-cell instructions
to the wave before the first observation and fails with `Unsatisfiable`
when propagation from presets alone contradicts.  The code does neither:
the `setTiles` parameter is accepted and documented but never read, so the
result of `solve` is independent of it, and the wave handed to the first
observation of every attempt is the full wave produced by
`initializeWaveMatrix` (every cell `{0..P−1}`), presets ignored; no
`Unsatisfiable` outcome exists (`solve` only ever returns a boolean). -/
theorem c2_solve_ignores_setTiles (patterns : List Pattern) (weights : List ℕ)
    (adjacencies : AdjTable) (setTiles setTiles' : List (ℕ × ℕ × Finset ℕ))
    (width height maxAttempts : ℕ) (o : Oracle) (fuel : ℕ) (c : Cell) :
    solve patterns weights adjacencies setTiles width height maxAttempts o fuel =
      solve patterns weights adjacencies setTiles' width height maxAttempts o fuel ∧
    initializeWaveMatrix patterns.length c = Finset.range patterns.length :=
  ⟨rfl, rfl⟩


theorem dirStep_cases {adjacencies : AdjTable} {H W : ℕ} {c1 : Cell} {S1 : List ℕ}
    {k : ℕ} {st r : Wave × List Cell}
    (h : dirStep adjacencies H W c1 S1 k st = some r) :
    r = st ∨ ∃ c2 m',
      r = (setCell st.1 c2 m', st.2 ++ [c2]) ∧ c2.1 < H ∧ c2.2 < W ∧
      m' = st.1 c2 ∩ adjUnion adjacencies S1 k ∧ m' ≠ ∅ ∧ m' ≠ st.1 c2 := by
  unfold dirStep at h
  dsimp only at h
  split at h
  · exact Or.inl (Option.some_injective _ h).symm
  · split at h
    · exact Or.inl (Option.some_injective _ h).symm
    · rename_i hy hx
      push_neg at hy hx
      split at h
      · exact absurd h (by simp)
      · split at h
        · exact Or.inl (Option.some_injective _ h).symm
        · rename_i hne heq
          refine Or.inr ⟨_, _, (Option.some_injective _ h).symm, ?_, ?_, rfl, hne, heq⟩
          · have h0 : (0 : ℤ) ≤ (c1.1 : ℤ) + -(DIRECTIONS.getD k (0, 0)).1 := hy.1
            have h1 : (c1.1 : ℤ) + -(DIRECTIONS.getD k (0, 0)).1 ≤ (H : ℤ) - 1 := hy.2
            omega
          · have h0 : (0 : ℤ) ≤ (c1.2 : ℤ) + -(DIRECTIONS.getD k (0, 0)).2 := hx.1
            have h1 : (c1.2 : ℤ) + -(DIRECTIONS.getD k (0, 0)).2 ≤ (W : ℤ) - 1 := hx.2
            omega


theorem processCell_inv {adjacencies : AdjTable} {H W : ℕ} {w : Wave} {c1 : Cell}
    (P : Wave × List Cell → Prop) (hP : P (w, []))
    (hstep : ∀ st k, k < 4 → P st →
      ∀ r, dirStep adjacencies H W c1 ((w c1).sort (· ≤ ·)) k st = some r → P r) :
    ∀ r, processCell adjacencies H W w c1 = some r → P r := by
  unfold processCell
  have h := foldl_pred_inv (f := fun st k =>
      st.bind (dirStep adjacencies H W c1 ((w c1).sort (· ≤ ·)) k))
    (l := List.range 4)
    (I := fun st => ∀ r, st = some r → P r)
    (Q := fun k => k < 4)
    (fun k hk => List.mem_range.mp hk)
    ?_ (some (w, [])) ?_
  · exact fun r hr => h _ hr
  · intro st k hk hInv r hr
    cases st with
    | none => simp at hr
    | some st' => exact hstep st' k hk (hInv st' rfl) r hr
  · intro r hr
    cases hr
    exact hP

theorem observe_some_eq {y x : ℕ} {weights : List ℕ} {u : ℚ} {w w' : Wave}
    (h : observe y x weights u w = some w') :
    ∃ p ∈ w (y, x), w' = setCell w (y, x) {p} := by
  unfold observe at h
  dsimp only at h
  split at h
  · rename_i p hp
    rw [chooseByWeight_eq_find weights _ _ 0 (Finset.sort_sorted_lt _)] at hp
    have hmem := List.mem_of_find?_eq_some hp
    rw [Finset.mem_sort] at hmem
    exact ⟨p, hmem, (Option.some_injective _ h).symm⟩
  · simp at h



theorem processCell_nonempty {adjacencies : AdjTable} {H W : ℕ} {w : Wave} {c1 : Cell}
    {w' : Wave} {adds : List Cell}
    (h : processCell adjacencies H W w c1 = some (w', adds)) :
    ∀ c, w' c = w c ∨ w' c ≠ ∅ := by
  have := processCell_inv
    (fun r => ∀ c, r.1 c = w c ∨ r.1 c ≠ ∅) (fun c => Or.inl rfl)
    ?_ (w', adds) h
  · exact this
  · intro st k _ hst r hr
    rcases dirStep_cases hr with rfl | ⟨c2, m', rfl, _, _, _, hne, _⟩
    · exact hst
    · intro c
      by_cases hc : c = c2
      · subst hc
        right
        simpa [setCell] using hne
      · simpa [setCell, hc] using hst c

/-- C7: (i) the entropy routine raises its `Contradiction` error exactly
when handed an empty possibility set; (ii) during any solve call with at
least one pattern, every per-cell mask of every reachable wave state is
nonempty at all times (observation writes a singleton and propagation
checks emptiness before writing), so the error is never raised during
`solve` and never escapes the core. -/
theorem c7_no_contradiction_escapes :
    (∀ (mask : Finset ℕ) (weights : List ℕ),
      (∃ e, getShannonEntropy mask weights = .error e) ↔ mask = ∅) ∧
    (∀ numPatterns weights adjacencies H W w, 1 ≤ numPatterns →
      SolveReach numPatterns weights adjacencies H W w →
      ∀ y, y < H → ∀ x, x < W → w (y, x) ≠ ∅) := by
  constructor
  · intro mask weights
    constructor
    · rintro ⟨e, he⟩
      unfold getShannonEntropy at he
      dsimp only at he
      split at he
      · rename_i hlen
        rw [Finset.length_sort] at hlen
        exact Finset.card_eq_zero.mp hlen
      · split at he <;> simp at he
    · rintro rfl
      refine ⟨"Contradiction found.", ?_⟩
      unfold getShannonEntropy
      dsimp only
      rw [Finset.sort_empty]
      rfl
  · intro numPatterns weights adjacencies H W w hP hreach
    induction hreach with
    | init =>
      intro y _ x _
      rw [initializeWaveMatrix]
      rw [← Finset.nonempty_iff_ne_empty, Finset.nonempty_range_iff]
      omega
    | observeStep hr hy hx hobs ih =>
      rename_i w0 y0 x0 u0
      obtain ⟨p, _, rfl⟩ := observe_some_eq hobs
      intro y' hy' x' hx'
      by_cases hc : ((y', x') : Cell) = (y0, x0)
      · rw [setCell]
        rw [if_pos hc]
        simp
      · rw [setCell]
        rw [if_neg hc]
        exact ih y' hy' x' hx'
    | propagateStep hr hy hx hproc ih =>
      intro y' hy' x' hx'
      rcases processCell_nonempty hproc (y', x') with heq | hne
      · rw [heq]
        exact ih y' hy' x' hx'
      · exact hne


/-- Witness for C7: the empty mask yields the Contradiction error, and the
initial one-pattern wave is nonempty at the origin. -/
theorem c7_no_contradiction_escapes_witness :
    (∃ e, getShannonEntropy ∅ [] = .error e) ∧ initializeWaveMatrix 1 (0, 0) ≠ ∅ :=
  ⟨(c7_no_contradiction_escapes.1 ∅ []).mpr rfl,
    c7_no_contradiction_escapes.2 1 [] [] 1 1 (initializeWaveMatrix 1) (le_refl 1)
      SolveReach.init 0 one_pos 0 one_pos⟩


theorem popTotal_init (H W P : ℕ) :
    popTotal H W (initializeWaveMatrix P) = H * W * P := by
  unfold popTotal initializeWaveMatrix
  rw [Finset.sum_const, Finset.card_product, Finset.card_range, Finset.card_range,
    Finset.card_range, smul_eq_mul]

theorem popTotal_mono {H W : ℕ} {w w' : Wave} (h : ∀ c, w' c ⊆ w c) :
    popTotal H W w' ≤ popTotal H W w :=
  Finset.sum_le_sum fun c _ => Finset.card_le_card (h c)

theorem popTotal_setCell_lt {H W : ℕ} {w : Wave} {c : Cell} {m : Finset ℕ}
    (hy : c.1 < H) (hx : c.2 < W) (hsub : m ⊆ w c) (hne : m ≠ w c) :
    popTotal H W (setCell w c m) < popTotal H W w := by
  have hmem : c ∈ Finset.range H ×ˢ Finset.range W := by
    rw [Finset.mem_product, Finset.mem_range, Finset.mem_range]
    exact ⟨hy, hx⟩
  refine Finset.sum_lt_sum (fun i _ => ?_) ⟨c, hmem, ?_⟩
  · by_cases hc : i = c
    · subst hc
      rw [setCell, if_pos rfl]
      exact Finset.card_le_card hsub
    · rw [setCell, if_neg hc]
  · rw [setCell, if_pos rfl]
    exact Finset.card_lt_card (Finset.ssubset_iff_subset_ne.mpr ⟨hsub, hne⟩)

theorem setCell_subset {w : Wave} {c : Cell} {m : Finset ℕ} (hsub : m ⊆ w c) :
    ∀ c', setCell w c m c' ⊆ w c' := by
  intro c'
  by_cases hc : c' = c
  · subst hc
    rw [setCell, if_pos rfl]
    exact hsub
  · rw [setCell, if_neg hc]

/-- Combined bookkeeping facts about one processed queue cell: the wave only
shrinks, the total population drops by at least one per newly enqueued
cell, and every enqueued cell is in bounds. -/
theorem processCell_pop {adjacencies : AdjTable} {H W : ℕ} {w : Wave} {c1 : Cell}
    {w' : Wave} {adds : List Cell}
    (h : processCell adjacencies H W w c1 = some (w', adds)) :
    (∀ c, w' c ⊆ w c) ∧
    popTotal H W w' + adds.length ≤ popTotal H W w ∧
    (∀ c ∈ adds, c.1 < H ∧ c.2 < W) := by
  refine processCell_inv
    (fun r => (∀ c, r.1 c ⊆ w c) ∧
      popTotal H W r.1 + r.2.length ≤ popTotal H W w ∧
      (∀ c ∈ r.2, c.1 < H ∧ c.2 < W))
    ⟨fun c => subset_rfl, by simp, by simp⟩ ?_ (w', adds) h
  intro st k _ hst r hr
  obtain ⟨hsub, hpop, hbnd⟩ := hst
  rcases dirStep_cases hr with rfl | ⟨c2, m', rfl, hc2y, hc2x, hm', _, hchg⟩
  · exact ⟨hsub, hpop, hbnd⟩
  · have hsubm : m' ⊆ st.1 c2 := hm' ▸ Finset.inter_subset_left
    refine ⟨?_, ?_, ?_⟩
    · intro c
      exact (setCell_subset hsubm c).trans (hsub c)
    · have hlt : popTotal H W (setCell st.1 c2 m') < popTotal H W st.1 :=
        popTotal_setCell_lt hc2y hc2x hsubm hchg
      simp only [List.length_append, List.length_cons, List.length_nil]
      omega
    · intro c hc
      rcases List.mem_append.mp hc with hc | hc
      · exact hbnd c hc
      · rw [List.mem_singleton] at hc
        subst hc
        exact ⟨hc2y, hc2x⟩


theorem propagateF_sufficient (adjacencies : AdjTable) (H W : ℕ) :
    ∀ (fuel : ℕ) (w : Wave) (q : List Cell),
      popTotal H W w + q.length < fuel →
      propagateF adjacencies H W fuel w q ≠ none := by
  intro fuel
  induction fuel with
  | zero => intro w q h; omega
  | succ fuel ih =>
    intro w q h
    match q with
    | [] => simp [propagateF]
    | c1 :: rest =>
      rw [propagateF]
      cases hpc : processCell adjacencies H W w c1 with
      | none => simp
      | some res =>
        obtain ⟨w', adds⟩ := res
        obtain ⟨_, hpop, _⟩ := processCell_pop hpc
        dsimp only
        apply ih
        simp only [List.length_append]
        simp only [List.length_cons] at h
        omega

theorem propagateF_subset (adjacencies : AdjTable) (H W : ℕ) :
    ∀ (fuel : ℕ) (w : Wave) (q : List Cell) (w' : Wave),
      propagateF adjacencies H W fuel w q = some (some w') →
      ∀ c, w' c ⊆ w c := by
  intro fuel
  induction fuel with
  | zero => intro w q w' h; simp [propagateF] at h
  | succ fuel ih =>
    intro w q w' h
    match q with
    | [] =>
      rw [propagateF] at h
      cases h
      exact fun c => subset_rfl
    | c1 :: rest =>
      rw [propagateF] at h
      cases hpc : processCell adjacencies H W w c1 with
      | none => rw [hpc] at h; simp at h
      | some res =>
        obtain ⟨w1, adds⟩ := res
        rw [hpc] at h
        intro c
        exact ((ih w1 _ w' h) c).trans ((processCell_pop hpc).1 c)

theorem propagateF_nonempty (adjacencies : AdjTable) (H W : ℕ) :
    ∀ (fuel : ℕ) (w : Wave) (q : List Cell) (w' : Wave),
      propagateF adjacencies H W fuel w q = some (some w') →
      ∀ c, w' c = w c ∨ w' c ≠ ∅ := by
  intro fuel
  induction fuel with
  | zero => intro w q w' h; simp [propagateF] at h
  | succ fuel ih =>
    intro w q w' h
    match q with
    | [] =>
      rw [propagateF] at h
      cases h
      exact fun c => Or.inl rfl
    | c1 :: rest =>
      rw [propagateF] at h
      cases hpc : processCell adjacencies H W w c1 with
      | none => rw [hpc] at h; simp at h
      | some res =>
        obtain ⟨w1, adds⟩ := res
        rw [hpc] at h
        intro c
        rcases ih w1 _ w' h c with heq | hne
        · rw [heq]
          exact processCell_nonempty hpc c
        · exact Or.inr hne

theorem propagateF_eq_propagate (adjacencies : AdjTable) (H W : ℕ) (w : Wave) (q : List Cell) :
    propagateF adjacencies H W (popTotal H W w + q.length + 1) w q =
      some (propagate adjacencies H W w q) := by
  have hsuff := propagateF_sufficient adjacencies H W (popTotal H W w + q.length + 1) w q
    (by omega)
  cases hres : propagateF adjacencies H W (popTotal H W w + q.length + 1) w q with
  | none => exact absurd hres hsuff
  | some res =>
    rw [propagate, hres]
    rfl

theorem propagate_subset {adjacencies : AdjTable} {H W : ℕ} {w : Wave} {q : List Cell}
    {w' : Wave} (h : propagate adjacencies H W w q = some w') :
    ∀ c, w' c ⊆ w c := by
  have := propagateF_eq_propagate adjacencies H W w q
  rw [h] at this
  exact propagateF_subset adjacencies H W _ w q w' this

theorem propagate_nonempty {adjacencies : AdjTable} {H W : ℕ} {w : Wave} {q : List Cell}
    {w' : Wave} (h : propagate adjacencies H W w q = some w') :
    ∀ c, w' c = w c ∨ w' c ≠ ∅ := by
  have := propagateF_eq_propagate adjacencies H W w q
  rw [h] at this
  exact propagateF_nonempty adjacencies H W _ w q w' this




theorem solveLoop_terminates (numPatterns : ℕ) (weights : List ℕ) (adjacencies : AdjTable)
    (width height maxAttempts : ℕ) (o : Oracle)
    (hP : 1 ≤ numPatterns)
    (hw : ∀ i, i < numPatterns → 1 ≤ weights.getD i 0)
    (hOK : OracleOK o height width) :
    ∀ (fuel numAttempts y x drawIdx : ℕ) (w : Wave),
      1 ≤ numAttempts → SolveInv numPatterns height width y x w →
      (maxAttempts + 1 - numAttempts) * (height * width * numPatterns + 2) +
        popTotal height width w + 1 ≤ fuel →
      ∃ b, solveLoop numPatterns weights adjacencies width height maxAttempts o
        fuel numAttempts y x drawIdx w = some (.ok b) := by
  intro fuel
  induction fuel with
  | zero =>
    intro a y x d w _ _ hfuel
    omega
  | succ fuel ih =>
    intro a y x d w ha hInv hfuel
    obtain ⟨hy, hx, hne, hsub, hcard⟩ := hInv
    rw [solveLoop]
    by_cases hcap : a ≤ maxAttempts
    · rw [if_pos hcap]
      obtain ⟨p, hpmem, _, hobs⟩ :=
        observe_collapse_spec y x weights (o.draw d) w (hne y x hy hx)
          (fun i hi => hw i (by have := hsub (y, x) hi; rwa [Finset.mem_range] at this))
          (hOK.2.1 d).1 (hOK.2.1 d).2
      rw [hobs]
      have hpsub : ({p} : Finset ℕ) ⊆ w (y, x) := Finset.singleton_subset_iff.mpr hpmem
      cases hprop : propagate adjacencies height width (setCell w (y, x) {p}) [(y, x)] with
      | none =>
        dsimp only
        rw [hprop]
        dsimp only
        apply ih
        · omega
        · refine ⟨(hOK.1 (a + 1)).1, (hOK.1 (a + 1)).2, ?_, ?_, ?_⟩
          · intro y' x' _ _
            rw [initializeWaveMatrix]
            rw [← Finset.nonempty_iff_ne_empty, Finset.nonempty_range_iff]
            omega
          · intro c
            rw [initializeWaveMatrix]
          · rw [initializeWaveMatrix, Finset.card_range]
            omega
        · rw [popTotal_init]
          have hsplit : maxAttempts + 1 - a = (maxAttempts + 1 - (a + 1)) + 1 := by omega
          rw [hsplit, add_mul, one_mul] at hfuel
          omega
      | some w2 =>
        dsimp only
        rw [hprop]
        dsimp only
        cases hsel : o.select w2 with
        | none =>
          simp only [hsel]
          exact ⟨true, rfl⟩
        | some c2 =>
          obtain ⟨y2, x2⟩ := c2
          simp only [hsel]
          have hselOK := hOK.2.2 w2 (y2, x2) hsel
          have hsub2 : ∀ c, w2 c ⊆ Finset.range numPatterns := fun c =>
            (propagate_subset hprop c).trans ((setCell_subset hpsub c).trans (hsub c))
          apply ih
          · exact ha
          · refine ⟨hselOK.1, hselOK.2.1, ?_, hsub2, Or.inl hselOK.2.2⟩
            intro y' x' hy' hx'
            rcases propagate_nonempty hprop (y', x') with heq | hne2
            · rw [heq]
              by_cases hc : ((y', x') : Cell) = (y, x)
              · rw [setCell, if_pos hc]
                simp
              · rw [setCell, if_neg hc]
                exact hne y' x' hy' hx'
            · exact hne2
          · have hcard2 : 2 ≤ (w (y, x)).card := by
              rcases hcard with h2 | h1
              · exact h2
              · exfalso
                have hle := Finset.card_le_card (hsub2 (y2, x2))
                rw [Finset.card_range, h1] at hle
                omega
            have hpoplt : popTotal height width (setCell w (y, x) {p}) <
                popTotal height width w := by
              refine popTotal_setCell_lt hy hx hpsub fun heq => ?_
              have : ({p} : Finset ℕ).card = (w (y, x)).card := by rw [heq]
              rw [Finset.card_singleton] at this
              omega
            have hpople : popTotal height width w2 ≤
                popTotal height width (setCell w (y, x) {p}) :=
              popTotal_mono (propagate_subset hprop)
            omega
    · rw [if_neg hcap]
      exact ⟨false, rfl⟩


theorem solveLoop_mono (numPatterns : ℕ) (weights : List ℕ) (adjacencies : AdjTable)
    (width height maxAttempts : ℕ) (o : Oracle) :
    ∀ (fuel numAttempts y x drawIdx : ℕ) (w : Wave) (r : Except String Bool),
      solveLoop numPatterns weights adjacencies width height maxAttempts o
        fuel numAttempts y x drawIdx w = some r →
      solveLoop numPatterns weights adjacencies width height maxAttempts o
        (fuel + 1) numAttempts y x drawIdx w = some r := by
  intro fuel
  induction fuel with
  | zero => intro a y x d w r h; simp [solveLoop] at h
  | succ fuel ih =>
    intro a y x d w r h
    rw [solveLoop] at h ⊢
    by_cases hcap : a ≤ maxAttempts
    · rw [if_pos hcap] at h ⊢
      cases hobs : observe y x weights (o.draw d) w with
      | none => simp only [hobs] at h ⊢; exact h
      | some w1 =>
        simp only [hobs] at h ⊢
        cases hprop : propagate adjacencies height width w1 [(y, x)] with
        | none =>
          simp only [hprop] at h ⊢
          exact ih _ _ _ _ _ _ h
        | some w2 =>
          simp only [hprop] at h ⊢
          cases hsel : o.select w2 with
          | none => simp only [hsel] at h ⊢; exact h
          | some c2 =>
            obtain ⟨y2, x2⟩ := c2
            simp only [hsel] at h ⊢
            exact ih _ _ _ _ _ _ h
    · rw [if_neg hcap] at h ⊢
      exact h

theorem solveLoop_mono_le (numPatterns : ℕ) (weights : List ℕ) (adjacencies : AdjTable)
    (width height maxAttempts : ℕ) (o : Oracle)
    {fuel fuel' : ℕ} (hle : fuel ≤ fuel')
    {numAttempts y x drawIdx : ℕ} {w : Wave} {r : Except String Bool}
    (h : solveLoop numPatterns weights adjacencies width height maxAttempts o
      fuel numAttempts y x drawIdx w = some r) :
    solveLoop numPatterns weights adjacencies width height maxAttempts o
      fuel' numAttempts y x drawIdx w = some r := by
  induction fuel' with
  | zero =>
    have : fuel = 0 := by omega
    subst this
    exact h
  | succ fuel' ih =>
    rcases Nat.lt_or_ge fuel (fuel' + 1) with hlt | hge
    · exact solveLoop_mono numPatterns weights adjacencies width height maxAttempts o
        fuel' _ _ _ _ _ _ (ih (by omega))
    · have : fuel = fuel' + 1 := by omega
      subst this
      exact h

/-- C8: for every input with at least one pattern and all weights positive
(and any oracle meeting the guarantees of the random sources and of the
entropy selection), `solve` terminates: a fuel of
(maxAttempts+1)·(H·W·P+2)+1 loop iterations always suffices and the result
is a boolean (each observation of an unsolved cell strictly shrinks the
total mask population, propagation only shrinks masks, and the attempt
counter is bumped on every contradiction), and whenever the attempt counter
exceeds `maxAttempts` the loop immediately returns the soft failure
`false` rather than looping. -/
theorem c8_solve_terminates (patterns : List Pattern) (weights : List ℕ)
    (adjacencies : AdjTable) (setTiles : List (ℕ × ℕ × Finset ℕ))
    (width height maxAttempts : ℕ) (o : Oracle)
    (hP : 1 ≤ patterns.length)
    (hw : ∀ i, i < patterns.length → 1 ≤ weights.getD i 0)
    (hOK : OracleOK o height width) :
    (∃ b : Bool, ∀ fuel,
      (maxAttempts + 1) * (height * width * patterns.length + 2) + 1 ≤ fuel →
      solve patterns weights adjacencies setTiles width height maxAttempts o fuel =
        some (.ok b)) ∧
    (∀ fuel numAttempts y x drawIdx w, maxAttempts < numAttempts →
      solveLoop patterns.length weights adjacencies width height maxAttempts o
        (fuel + 1) numAttempts y x drawIdx w = some (.ok false)) := by
  constructor
  · have hinv : SolveInv patterns.length height width (o.seedY 1) (o.seedX 1)
        (initializeWaveMatrix patterns.length) := by
      refine ⟨(hOK.1 1).1, (hOK.1 1).2, ?_, ?_, ?_⟩
      · intro y' x' _ _
        rw [initializeWaveMatrix]
        rw [← Finset.nonempty_iff_ne_empty, Finset.nonempty_range_iff]
        omega
      · intro c
        rw [initializeWaveMatrix]
      · rw [initializeWaveMatrix, Finset.card_range]
        omega
    have hbound : (maxAttempts + 1 - 1) * (height * width * patterns.length + 2) +
        popTotal height width (initializeWaveMatrix patterns.length) + 1 ≤
        (maxAttempts + 1) * (height * width * patterns.length + 2) + 1 := by
      rw [popTotal_init]
      have hsplit : maxAttempts + 1 = maxAttempts + 1 - 1 + 1 := by omega
      nth_rewrite 2 [hsplit]
      rw [add_mul, one_mul]
      omega
    obtain ⟨b, hb⟩ := solveLoop_terminates patterns.length weights adjacencies
      width height maxAttempts o hP hw hOK
      ((maxAttempts + 1) * (height * width * patterns.length + 2) + 1)
      1 (o.seedY 1) (o.seedX 1) 0 (initializeWaveMatrix patterns.length)
      (le_refl 1) hinv hbound
    refine ⟨b, fun fuel hfuel => ?_⟩
    rw [solve]
    exact solveLoop_mono_le patterns.length weights adjacencies width height
      maxAttempts o hfuel hb
  · intro fuel a y x d w hgt
    rw [solveLoop, if_neg (Nat.not_le.mpr hgt)]

/-- Witness for C8: a one-pattern model on a 1×1 grid with weight [1] and a
trivial oracle; solve succeeds within the fuel bound. -/
theorem c8_solve_terminates_witness :
    (∃ b : Bool, ∀ fuel,
      (1 + 1) * (1 * 1 * ([[[0]]] : List Pattern).length + 2) + 1 ≤ fuel →
      solve [[[0]]] [1] [] [] 1 1 1
        ⟨fun _ => 0, fun _ => 0, fun _ => 0, fun _ => none⟩ fuel =
        some (.ok b)) ∧
    (∀ fuel numAttempts y x drawIdx w, 1 < numAttempts →
      solveLoop ([[[0]]] : List Pattern).length [1] [] 1 1 1
        ⟨fun _ => 0, fun _ => 0, fun _ => 0, fun _ => none⟩
        (fuel + 1) numAttempts y x drawIdx w = some (.ok false)) :=
  c8_solve_terminates [[[0]]] [1] [] [] 1 1 1
    ⟨fun _ => 0, fun _ => 0, fun _ => 0, fun _ => none⟩
    (by decide)
    (fun i hi => by
      have hlen : ([[[0]]] : List Pattern).length = 1 := rfl
      rw [hlen] at hi
      have h0 : i = 0 := by omega
      subst h0
      decide)
    ⟨fun a => ⟨one_pos, one_pos⟩, fun n => ⟨le_refl 0, one_pos⟩,
      fun w c h => Option.noConfusion h⟩

/-! ## Propagation confluence -/

theorem dirStep_eq (adjacencies : AdjTable) (H W : ℕ) (c1 : Cell) (S1 : List ℕ)
    (k : ℕ) (st : Wave × List Cell) :
    dirStep adjacencies H W c1 S1 k st =
      match neighborOf H W c1 k with
      | none => some st
      | some c2 =>
        if st.1 c2 ∩ adjUnion adjacencies S1 k = ∅ then none
        else if st.1 c2 ∩ adjUnion adjacencies S1 k = st.1 c2 then some st
        else some (setCell st.1 c2 (st.1 c2 ∩ adjUnion adjacencies S1 k), st.2 ++ [c2]) := by
  unfold dirStep neighborOf adjUnion
  dsimp only
  split
  · rfl
  · split
    · rfl
    · rfl

theorem dirStep_none_neighbor {adjacencies : AdjTable} {H W : ℕ} {c1 : Cell}
    {S1 : List ℕ} {k : ℕ} {st : Wave × List Cell}
    (hnb : neighborOf H W c1 k = none) :
    dirStep adjacencies H W c1 S1 k st = some st := by
  rw [dirStep_eq, hnb]

theorem dirStep_some_neighbor {adjacencies : AdjTable} {H W : ℕ} {c1 : Cell}
    {S1 : List ℕ} {k : ℕ} {st r : Wave × List Cell} {c2 : Cell}
    (hnb : neighborOf H W c1 k = some c2)
    (h : dirStep adjacencies H W c1 S1 k st = some r) :
    (r = st ∧ st.1 c2 ⊆ adjUnion adjacencies S1 k) ∨
    (r = (setCell st.1 c2 (st.1 c2 ∩ adjUnion adjacencies S1 k), st.2 ++ [c2]) ∧
      st.1 c2 ∩ adjUnion adjacencies S1 k ≠ st.1 c2) := by
  rw [dirStep_eq, hnb] at h
  dsimp only at h
  split at h
  · exact absurd h (by simp)
  · split at h
    · rename_i hinter
      exact Or.inl ⟨(Option.some_injective _ h).symm, Finset.inter_eq_left.mp hinter⟩
    · rename_i hne
      exact Or.inr ⟨(Option.some_injective _ h).symm, hne⟩

theorem dirStep_frame {adjacencies : AdjTable} {H W : ℕ} {c1 : Cell}
    {S1 : List ℕ} {k : ℕ} {st r : Wave × List Cell}
    (h : dirStep adjacencies H W c1 S1 k st = some r) :
    ∀ c, neighborOf H W c1 k ≠ some c → r.1 c = st.1 c := by
  intro c hc
  rw [dirStep_eq] at h
  cases hnb : neighborOf H W c1 k with
  | none =>
    rw [hnb] at h
    rw [← (Option.some_injective _ h)]
  | some c2 =>
    rw [hnb] at h
    dsimp only at h
    split at h
    · exact absurd h (by simp)
    · split at h
      · rw [← (Option.some_injective _ h)]
      · rw [← (Option.some_injective _ h)]
        dsimp only
        rw [setCell, if_neg]
        intro hcc
        subst hcc
        exact hc hnb


theorem neighborOf_coords {H W : ℕ} {c1 c2 : Cell} {k : ℕ}
    (h : neighborOf H W c1 k = some c2) :
    (c2.1 : ℤ) = (c1.1 : ℤ) + -(DIRECTIONS.getD k (0, 0)).1 ∧
    (c2.2 : ℤ) = (c1.2 : ℤ) + -(DIRECTIONS.getD k (0, 0)).2 := by
  unfold neighborOf at h
  dsimp only at h
  split at h
  · simp at h
  · split at h
    · simp at h
    · rename_i h1 h2
      push_neg at h1 h2
      injection h with hc
      rw [← hc]
      dsimp only
      rw [Int.toNat_of_nonneg h1.1, Int.toNat_of_nonneg h2.1]
      exact ⟨rfl, rfl⟩

theorem neighborOf_ne {H W : ℕ} {c1 c2 : Cell} {k : ℕ} (hk : k < 4)
    (h : neighborOf H W c1 k = some c2) : c2 ≠ c1 := by
  intro hceq
  subst hceq
  obtain ⟨h1, h2⟩ := neighborOf_coords h
  interval_cases k <;> simp [DIRECTIONS] at h1 h2 <;> omega

theorem neighborOf_inj {H W : ℕ} {c1 : Cell} {k k' : ℕ} (hk : k < 4) (hk' : k' < 4)
    (hne : k ≠ k') {c2 c2' : Cell} (h : neighborOf H W c1 k = some c2)
    (h' : neighborOf H W c1 k' = some c2') : c2 ≠ c2' := by
  intro hceq
  subst hceq
  obtain ⟨h1, h2⟩ := neighborOf_coords h
  obtain ⟨h1', h2'⟩ := neighborOf_coords h'
  interval_cases k <;> interval_cases k' <;>
    simp [DIRECTIONS] at h1 h2 h1' h2' <;> omega

theorem mem_adjUnion {adjacencies : AdjTable} {S1 : List ℕ} {k j : ℕ} :
    j ∈ adjUnion adjacencies S1 k ↔ ∃ i ∈ S1, j ∈ maskAt adjacencies i k := by
  unfold adjUnion
  suffices h : ∀ (acc : Finset ℕ),
      (j ∈ S1.foldl (fun acc i => acc ∪ maskAt adjacencies i k) acc ↔
        j ∈ acc ∨ ∃ i ∈ S1, j ∈ maskAt adjacencies i k) by
    rw [h ∅]
    simp
  induction S1 with
  | nil => intro acc; simp
  | cons i S1 ih =>
    intro acc
    rw [List.foldl_cons, ih (acc ∪ maskAt adjacencies i k)]
    simp only [Finset.mem_union, List.mem_cons]
    constructor
    · rintro ((hj | hj) | ⟨i', hi', hj⟩)
      · exact Or.inl hj
      · exact Or.inr ⟨i, Or.inl rfl, hj⟩
      · exact Or.inr ⟨i', Or.inr hi', hj⟩
    · rintro (hj | ⟨i', hi' | hi', hj⟩)
      · exact Or.inl (Or.inl hj)
      · exact Or.inl (Or.inr (hi' ▸ hj))
      · exact Or.inr ⟨i', hi', hj⟩

theorem adjUnion_mono {adjacencies : AdjTable} {S1 S1' : List ℕ} {k : ℕ}
    (h : ∀ i ∈ S1, i ∈ S1') :
    adjUnion adjacencies S1 k ⊆ adjUnion adjacencies S1' k := by
  intro j hj
  rw [mem_adjUnion] at hj ⊢
  obtain ⟨i, hi, hj⟩ := hj
  exact ⟨i, h i hi, hj⟩





theorem waveAdjUnion_mono {adjacencies : AdjTable} {u w : Wave} {c1 : Cell} {k : ℕ}
    (h : u c1 ⊆ w c1) :
    waveAdjUnion adjacencies u c1 k ⊆ waveAdjUnion adjacencies w c1 k := by
  apply adjUnion_mono
  intro i hi
  rw [Finset.mem_sort] at hi ⊢
  exact h hi

theorem foldl_bind_none {α β : Type*} (g : β → α → Option α) :
    ∀ ks : List β, ks.foldl (fun st k => st.bind (g k)) none = none
  | [] => rfl
  | k :: ks => by
    rw [List.foldl_cons, Option.none_bind]
    exact foldl_bind_none g ks

/-- A `processCell` fold over an arbitrary direction list: the frame rule
(cells that are no listed direction's neighbour keep their mask) and the
arc-consistency guarantee for processed directions. -/
theorem processDirs_spec {adjacencies : AdjTable} {H W : ℕ} {c1 : Cell} {S1 : List ℕ}
    (ks : List ℕ) :
    ∀ (st r : Wave × List Cell),
      ks.foldl (fun st k => st.bind (dirStep adjacencies H W c1 S1 k)) (some st) = some r →
      (∀ c, (∀ k ∈ ks, neighborOf H W c1 k ≠ some c) → r.1 c = st.1 c) ∧
      (ks.Nodup → (∀ k ∈ ks, k < 4) →
        ∀ k ∈ ks, ∀ c2, neighborOf H W c1 k = some c2 →
          r.1 c2 ⊆ adjUnion adjacencies S1 k) := by
  induction ks with
  | nil =>
    intro st r h
    cases h
    exact ⟨fun c _ => rfl, fun _ _ k hk => absurd hk (List.not_mem_nil _)⟩
  | cons k ks ih =>
    intro st r h
    rw [List.foldl_cons, Option.some_bind] at h
    cases hstep : dirStep adjacencies H W c1 S1 k st with
    | none =>
      rw [hstep] at h
      rw [foldl_bind_none] at h
      cases h
    | some st1 =>
      rw [hstep] at h
      obtain ⟨hframe, harcs⟩ := ih st1 r h
      constructor
      · intro c hc
        rw [hframe c fun k' hk' => hc k' (List.mem_cons_of_mem _ hk'),
          dirStep_frame hstep c (hc k (List.mem_cons_self ..))]
      · intro hnodup hlt k' hk' c2 hnb
        rcases List.mem_cons.mp hk' with rfl | hk'ks
        · -- the head direction: later steps do not touch its neighbour
          have hothers : ∀ k'' ∈ ks, neighborOf H W c1 k'' ≠ some c2 := by
            intro k'' hk'' hnb''
            have hkne : k' ≠ k'' := by
              intro hkk
              subst hkk
              exact (List.nodup_cons.mp hnodup).1 hk''
            exact neighborOf_inj (hlt k' (List.mem_cons_self ..))
              (hlt k'' (List.mem_cons_of_mem _ hk'')) hkne hnb hnb'' rfl
          rw [hframe c2 hothers]
          rcases dirStep_some_neighbor hnb hstep with ⟨rfl, hsub⟩ | ⟨rfl, _⟩
          · exact hsub
          · dsimp only
            rw [setCell, if_pos rfl]
            exact Finset.inter_subset_right
        · exact harcs (List.nodup_cons.mp hnodup).2
            (fun k'' hk'' => hlt k'' (List.mem_cons_of_mem _ hk'')) k' hk'ks c2 hnb


theorem processCell_c1_unchanged {adjacencies : AdjTable} {H W : ℕ} {w : Wave}
    {c1 : Cell} {w' : Wave} {adds : List Cell}
    (h : processCell adjacencies H W w c1 = some (w', adds)) : w' c1 = w c1 := by
  unfold processCell at h
  exact (processDirs_spec (List.range 4) (w, []) (w', adds) h).1 c1
    fun k hk hnb => neighborOf_ne (List.mem_range.mp hk) hnb rfl

theorem processCell_arcsOK_self {adjacencies : AdjTable} {H W : ℕ} {w : Wave}
    {c1 : Cell} {w' : Wave} {adds : List Cell}
    (h : processCell adjacencies H W w c1 = some (w', adds)) :
    arcsOK adjacencies H W w' c1 := by
  intro k hk c2 hnb
  have hc1 : w' c1 = w c1 := processCell_c1_unchanged h
  unfold processCell at h
  have harcs := (processDirs_spec (List.range 4) (w, []) (w', adds) h).2
    (List.nodup_range 4) (fun k' hk' => List.mem_range.mp hk')
    k (List.mem_range.mpr hk) c2 hnb
  unfold waveAdjUnion
  rw [hc1]
  exact harcs

theorem processCell_lower {adjacencies : AdjTable} {H W : ℕ} {w u : Wave}
    {c1 : Cell} {w' : Wave} {adds : List Cell}
    (hsim : ∀ c, u c ⊆ w c) (harcs : arcsOK adjacencies H W u c1)
    (h : processCell adjacencies H W w c1 = some (w', adds)) :
    ∀ c, u c ⊆ w' c := by
  refine processCell_inv (fun r => ∀ c, u c ⊆ r.1 c) hsim
    ?_ (w', adds) h
  intro st k hk hst r hr
  cases hnb : neighborOf H W c1 k with
  | none =>
    rw [dirStep_none_neighbor hnb] at hr
    cases hr
    exact hst
  | some c2 =>
    rcases dirStep_some_neighbor hnb hr with ⟨rfl, _⟩ | ⟨rfl, _⟩
    · exact hst
    · intro c
      dsimp only
      by_cases hc : c = c2
      · subst hc
        rw [setCell, if_pos rfl]
        refine Finset.subset_inter (hst c) ?_
        refine (harcs k hk c hnb).trans ?_
        exact waveAdjUnion_mono (hsim c1)
      · rw [setCell, if_neg hc]
        exact hst c

theorem processCell_adds_changed {adjacencies : AdjTable} {H W : ℕ} {w : Wave}
    {c1 : Cell} {w' : Wave} {adds : List Cell}
    (h : processCell adjacencies H W w c1 = some (w', adds)) :
    ∀ c ∈ adds, w' c ≠ w c := by
  refine (processCell_inv
    (fun r => (∀ c, r.1 c ⊆ w c) ∧ ∀ c ∈ r.2, r.1 c ≠ w c)
    ⟨fun c => subset_rfl, by simp⟩ ?_ (w', adds) h).2
  intro st k hk hst r hr
  obtain ⟨hsub, hchg⟩ := hst
  cases hnb : neighborOf H W c1 k with
  | none =>
    rw [dirStep_none_neighbor hnb] at hr
    cases hr
    exact ⟨hsub, hchg⟩
  | some c2 =>
    rcases dirStep_some_neighbor hnb hr with ⟨rfl, _⟩ | ⟨rfl, hne⟩
    · exact ⟨hsub, hchg⟩
    · have hm'sub : st.1 c2 ∩ adjUnion adjacencies ((w c1).sort (· ≤ ·)) k ⊆ st.1 c2 :=
        Finset.inter_subset_left
      have hm'ne : st.1 c2 ∩ adjUnion adjacencies ((w c1).sort (· ≤ ·)) k ≠ w c2 := by
        intro heq
        apply hne
        refine Finset.Subset.antisymm hm'sub ?_
        calc st.1 c2 ⊆ w c2 := hsub c2
          _ = _ := heq.symm
      constructor
      · intro c
        dsimp only
        by_cases hc : c = c2
        · subst hc
          rw [setCell, if_pos rfl]
          exact hm'sub.trans (hsub c)
        · rw [setCell, if_neg hc]
          exact hsub c
      · intro c hc
        dsimp only at hc ⊢
        by_cases hcc : c = c2
        · subst hcc
          rw [setCell, if_pos rfl]
          exact hm'ne
        · rw [setCell, if_neg hcc]
          rcases List.mem_append.mp hc with hc | hc
          · exact hchg c hc
          · rw [List.mem_singleton] at hc
            exact absurd hc hcc



theorem processCell_changed_mem_adds {adjacencies : AdjTable} {H W : ℕ} {w : Wave}
    {c1 : Cell} {w' : Wave} {adds : List Cell}
    (h : processCell adjacencies H W w c1 = some (w', adds)) :
    ∀ c, w' c ≠ w c → c ∈ adds := by
  refine processCell_inv
    (fun r => ∀ c, r.1 c ≠ w c → c ∈ r.2) (fun c hc => absurd rfl hc)
    ?_ (w', adds) h
  intro st k _ hst r hr
  cases hnb : neighborOf H W c1 k with
  | none =>
    rw [dirStep_none_neighbor hnb] at hr
    cases hr
    exact hst
  | some c2 =>
    rcases dirStep_some_neighbor hnb hr with ⟨rfl, _⟩ | ⟨rfl, _⟩
    · exact hst
    · intro c hc
      dsimp only at hc ⊢
      by_cases hcc : c = c2
      · subst hcc
        exact List.mem_append.mpr (Or.inr (List.mem_singleton.mpr rfl))
      · rw [setCell, if_neg hcc] at hc
        exact List.mem_append.mpr (Or.inl (hst c hc))

theorem subset_ne_propagate {a b c : Finset ℕ} (hab : a ⊆ b) (hbc : b ⊆ c)
    (hne : b ≠ c) : a ≠ c := by
  intro heq
  exact hne (Finset.Subset.antisymm hbc (heq ▸ hab))

theorem arcsOK_shrink {adjacencies : AdjTable} {H W : ℕ} {w w' : Wave} {c : Cell}
    (hsub : ∀ c', w' c' ⊆ w c') (hc : w' c = w c)
    (h : arcsOK adjacencies H W w c) : arcsOK adjacencies H W w' c := by
  intro k hk c2 hnb
  refine (hsub c2).trans ((h k hk c2 hnb).trans ?_)
  unfold waveAdjUnion
  rw [hc]

theorem run_invariant (adjacencies : AdjTable) (H W : ℕ) {w0 : Wave} {q0 : Finset Cell}
    {s : Wave × Finset Cell}
    (hrun : Relation.ReflTransGen (PropStep adjacencies H W) (w0, q0) s) :
    (∀ c, s.1 c ⊆ w0 c) ∧ (∀ c ∈ s.2, c ∈ q0 ∨ s.1 c ≠ w0 c) ∧
    (∀ c1, (c1 ∈ q0 ∨ s.1 c1 ≠ w0 c1) → (c1 ∈ s.2 ∨ arcsOK adjacencies H W s.1 c1)) := by
  induction hrun with
  | refl =>
    refine ⟨fun c => subset_rfl, fun c hc => Or.inl hc, fun c1 hc1 => ?_⟩
    rcases hc1 with hq | hne
    · exact Or.inl hq
    · exact absurd rfl hne
  | tail hpre hstep ih =>
    obtain ⟨ihsub, ihpend, ihcons⟩ := ih
    cases hstep with
    | step hc1pend hproc =>
      rename_i w pend c1 w' adds
      dsimp only at ihsub ihpend ihcons ⊢
      have hww' : ∀ c, w' c ⊆ w c := (processCell_pop hproc).1
      refine ⟨fun c => (hww' c).trans (ihsub c), ?_, ?_⟩
      · intro c hc
        rcases Finset.mem_union.mp hc with hc | hc
        · obtain ⟨hne, hcp⟩ := Finset.mem_erase.mp hc
          rcases ihpend c hcp with hq | hnw
          · exact Or.inl hq
          · exact Or.inr (subset_ne_propagate (hww' c) (ihsub c) hnw)
        · rw [List.mem_toFinset] at hc
          refine Or.inr fun heq => ?_
          have hchg := processCell_adds_changed hproc c hc
          apply hchg
          refine Finset.Subset.antisymm (hww' c) ?_
          rw [heq]
          exact ihsub c
      · intro c hc
        by_cases hcc : c = c1
        · subst hcc
          exact Or.inr (processCell_arcsOK_self hproc)
        · by_cases hch : w' c = w c
          · have hc' : c ∈ q0 ∨ w c ≠ w0 c := by
              rcases hc with hq | hne
              · exact Or.inl hq
              · rw [hch] at hne
                exact Or.inr hne
            rcases ihcons c hc' with hp | ha
            · exact Or.inl (Finset.mem_union.mpr
                (Or.inl (Finset.mem_erase.mpr ⟨hcc, hp⟩)))
            · exact Or.inr (arcsOK_shrink hww' hch ha)
          · exact Or.inl (Finset.mem_union.mpr (Or.inr
              (List.mem_toFinset.mpr (processCell_changed_mem_adds hproc c hch))))


theorem run_lower {adjacencies : AdjTable} {H W : ℕ} {w0 : Wave} {q0 : Finset Cell}
    {u : Wave} (hconds : Conds adjacencies H W w0 q0 u)
    {s : Wave × Finset Cell}
    (hrun : Relation.ReflTransGen (PropStep adjacencies H W) (w0, q0) s) :
    ∀ c, u c ⊆ s.1 c := by
  induction hrun with
  | refl => exact hconds.1
  | tail hpre hstep ih =>
    cases hstep with
    | step hc1pend hproc =>
      rename_i w pend c1 w' adds
      dsimp only at ih ⊢
      obtain ⟨hsubb, hpendb, _⟩ := run_invariant adjacencies H W hpre
      dsimp only at hsubb hpendb
      have harcs : arcsOK adjacencies H W u c1 := by
        rcases hpendb c1 hc1pend with hq | hne
        · exact hconds.2 c1 (Or.inl hq)
        · refine hconds.2 c1 (Or.inr fun hueq => hne ?_)
          refine Finset.Subset.antisymm (hsubb c1) ?_
          rw [← hueq]
          exact ih c1
      exact processCell_lower ih harcs hproc

theorem run_final_conds {adjacencies : AdjTable} {H W : ℕ} {w0 : Wave}
    {q0 : Finset Cell} {w1 : Wave}
    (hrun : Relation.ReflTransGen (PropStep adjacencies H W) (w0, q0) (w1, ∅)) :
    Conds adjacencies H W w0 q0 w1 := by
  obtain ⟨hsub, _, hcons⟩ := run_invariant adjacencies H W hrun
  exact ⟨hsub, fun c1 hc1 => (hcons c1 hc1).resolve_left (Finset.not_mem_empty c1)⟩

/-- C10: propagation is confluent.  Starting from the same wave state and
pending set and the same learned adjacencies, any two complete runs of the
arc-consistency sweep (processing pending cells in any order) that do not
report a contradiction end with the same final mask for every cell. -/
theorem c10_propagation_confluent (adjacencies : AdjTable) (H W : ℕ)
    (w0 : Wave) (q0 : Finset Cell) (w1 w2 : Wave)
    (h1 : Relation.ReflTransGen (PropStep adjacencies H W) (w0, q0) (w1, ∅))
    (h2 : Relation.ReflTransGen (PropStep adjacencies H W) (w0, q0) (w2, ∅)) :
    ∀ c, w1 c = w2 c := by
  intro c
  exact Finset.Subset.antisymm
    (run_lower (run_final_conds h1) h2 c)
    (run_lower (run_final_conds h2) h1 c)


/-- Witness for C10: a complete one-step run on a 1×1 grid with a single
self-adjacent pattern, applied to the confluence theorem twice. -/
theorem c10_propagation_confluent_witness :
    initializeWaveMatrix 1 ((0 : ℕ), (0 : ℕ)) = initializeWaveMatrix 1 (0, 0) := by
  have hpc : processCell [[{0}, {0}, {0}, {0}]] 1 1 (initializeWaveMatrix 1)
      ((0 : ℕ), (0 : ℕ)) = some (initializeWaveMatrix 1, []) := by
    unfold processCell
    rw [show List.range 4 = [0, 1, 2, 3] from rfl]
    rw [List.foldl_cons, Option.some_bind, dirStep_none_neighbor (by decide),
      List.foldl_cons, Option.some_bind, dirStep_none_neighbor (by decide),
      List.foldl_cons, Option.some_bind, dirStep_none_neighbor (by decide),
      List.foldl_cons, Option.some_bind, dirStep_none_neighbor (by decide),
      List.foldl_nil]
  have hstep : PropStep [[{0}, {0}, {0}, {0}]] 1 1
      (initializeWaveMatrix 1, {((0 : ℕ), (0 : ℕ))}) (initializeWaveMatrix 1, ∅) := by
    have h := PropStep.step (Finset.mem_singleton.mpr rfl) hpc
    have heq : ({((0 : ℕ), (0 : ℕ))} : Finset Cell).erase (0, 0) ∪
        ([] : List Cell).toFinset = ∅ := by decide
    rwa [heq] at h
  exact c10_propagation_confluent [[{0}, {0}, {0}, {0}]] 1 1 (initializeWaveMatrix 1)
    {((0 : ℕ), (0 : ℕ))} (initializeWaveMatrix 1) (initializeWaveMatrix 1)
    (Relation.ReflTransGen.single hstep) (Relation.ReflTransGen.single hstep) (0, 0)

end WFC
